import Mathlib

/-!
Verification of the OpenScribe encrypted audit logging engine and its secure
storage collaborator.

The repository ships the test suites for these modules
(`packages/storage/src/__tests__/audit-log.test.ts` and the secure-storage
test file) but not the module implementations themselves, so the engine below
is modelled from the design specification (spec.md) and cross-checked against
the behaviours the tests exercise.

Modelling conventions:
- JSON-serializable values are the inductive `Json`; serialization is a
  character-level JSON printer with a verified parser inverse.
- The authenticated symmetric cipher is modelled as an injective keyed-storage
  encoding into the base64 alphabet (cryptographic strength is outside a
  shallow embedding; the claims concern envelope structure and round-trips).
- Timestamps are milliseconds-since-epoch naturals (order-isomorphic to the
  ISO-8601 instants the code stores).
- Asynchronous operations are modelled by their completed outcome; the
  single-threaded interleaving of the real engine means each operation runs
  to completion between suspension points.
-/

/-- JSON values as stored by the engine (`JSON.stringify`/`JSON.parse`
domain). Numbers are modelled as integers: every number the audit engine
persists (timestamps, counts, durations, retention days) is integral. -/
inductive Json where
  | null : Json
  | bool (b : Bool) : Json
  | num (n : Int) : Json
  | str (s : String) : Json
  | arr (elems : List Json) : Json
  | obj (fields : List (String × Json)) : Json

/-- The decimal digit character for `n < 10`. -/
def digitChar (n : Nat) : Char := Char.ofNat (48 + n)

/-- Decimal printing of a natural number (most significant digit first). -/
def printNat (n : Nat) : List Char :=
  if n < 10 then [digitChar n]
  else printNat (n / 10) ++ [digitChar (n % 10)]
termination_by n
decreasing_by simp_wf; omega

/-- Decimal printing of an integer, with a leading minus sign if negative. -/
def printInt (i : Int) : List Char :=
  if i < 0 then '-' :: printNat i.natAbs else printNat i.natAbs

/-- JSON string escaping for one character (quote and backslash). -/
def escChar (c : Char) : List Char :=
  if c = '"' || c = '\\' then ['\\', c] else [c]

/-- JSON string escaping for a character sequence. -/
def escapeChars : List Char → List Char
  | [] => []
  | c :: cs => escChar c ++ escapeChars cs

/-- The literal text of the JSON `null` keyword. -/
def litNull : List Char := ['n', 'u', 'l', 'l']

/-- The literal text of the JSON `true` keyword. -/
def litTrue : List Char := ['t', 'r', 'u', 'e']

/-- The literal text of the JSON `false` keyword. -/
def litFalse : List Char := ['f', 'a', 'l', 's', 'e']

mutual

/-- The JSON printer (`JSON.stringify` without whitespace). -/
def printJ : Json → List Char
  | .null => litNull
  | .bool true => litTrue
  | .bool false => litFalse
  | .num n => printInt n
  | .str s => '"' :: (escapeChars s.data ++ ['"'])
  | .arr [] => ['[', ']']
  | .arr (v :: vs) => '[' :: (printElems v vs ++ [']'])
  | .obj [] => ['{', '}']
  | .obj (f :: fs) => '{' :: (printFields f fs ++ ['}'])
termination_by v => sizeOf v
decreasing_by
  all_goals simp_wf
  all_goals omega

/-- Comma-separated printing of a nonempty array body. -/
def printElems : Json → List Json → List Char
  | v, [] => printJ v
  | v, w :: vs => printJ v ++ ',' :: printElems w vs
termination_by v vs => sizeOf v + sizeOf vs
decreasing_by
  all_goals simp_wf
  all_goals omega

/-- Comma-separated printing of a nonempty object body. -/
def printFields : (String × Json) → List (String × Json) → List Char
  | (k, v), [] => '"' :: (escapeChars k.data ++ '"' :: ':' :: printJ v)
  | (k, v), f :: fs =>
      ('"' :: (escapeChars k.data ++ '"' :: ':' :: printJ v)) ++ ',' :: printFields f fs
termination_by f fs => sizeOf f + sizeOf fs
decreasing_by
  all_goals simp_wf
  all_goals omega

end

/-- Whether a character is a decimal digit. -/
def isDigitC (c : Char) : Bool := 48 ≤ c.toNat && c.toNat ≤ 57

/-- Parse a run of decimal digits, folding into an accumulator. -/
def parseDigits (acc : Nat) : List Char → Nat × List Char
  | [] => (acc, [])
  | c :: rest =>
      if isDigitC c then parseDigits (acc * 10 + (c.toNat - 48)) rest
      else (acc, c :: rest)

/-- Parse a JSON integer (optional minus sign, then digits). -/
def parseNumber : List Char → Option (Int × List Char)
  | [] => none
  | c :: rest =>
    if c = '-' then
      match rest with
      | [] => none
      | d :: rest2 =>
        if isDigitC d then
          let p := parseDigits 0 (d :: rest2)
          some (-(p.1 : Int), p.2)
        else none
    else if isDigitC c then
      let p := parseDigits 0 (c :: rest)
      some ((p.1 : Int), p.2)
    else none

/-- Parse a JSON string body (after the opening quote), un-escaping, up to
and including the closing quote; returns the content and the remainder. -/
def parseStr : List Char → Option (List Char × List Char)
  | [] => none
  | c :: rest =>
    if c = '\\' then
      match rest with
      | [] => none
      | d :: rest2 => (parseStr rest2).map (fun p => (d :: p.1, p.2))
    else if c = '"' then some ([], rest)
    else (parseStr rest).map (fun p => (c :: p.1, p.2))

mutual

/-- Fueled recursive-descent JSON parser; inverse of `printJ`. -/
def parseJ : Nat → List Char → Option (Json × List Char)
  | 0, _ => none
  | _ + 1, [] => none
  | fuel + 1, c :: rest =>
    if c = 'n' then
      match rest with
      | 'u' :: 'l' :: 'l' :: r => some (.null, r)
      | _ => none
    else if c = 't' then
      match rest with
      | 'r' :: 'u' :: 'e' :: r => some (.bool true, r)
      | _ => none
    else if c = 'f' then
      match rest with
      | 'a' :: 'l' :: 's' :: 'e' :: r => some (.bool false, r)
      | _ => none
    else if c = '"' then
      (parseStr rest).map (fun p => (.str (String.mk p.1), p.2))
    else if c = '[' then
      match rest with
      | [] => none
      | c2 :: r =>
        if c2 = ']' then some (.arr [], r)
        else (parseElemsP fuel (c2 :: r)).map (fun p => (.arr p.1, p.2))
    else if c = '{' then
      match rest with
      | [] => none
      | c2 :: r =>
        if c2 = '}' then some (.obj [], r)
        else (parseFieldsP fuel (c2 :: r)).map (fun p => (.obj p.1, p.2))
    else
      (parseNumber (c :: rest)).map (fun p => (.num p.1, p.2))

/-- Parse a nonempty comma-separated array body up to the closing bracket. -/
def parseElemsP : Nat → List Char → Option (List Json × List Char)
  | 0, _ => none
  | fuel + 1, l =>
    match parseJ fuel l with
    | none => none
    | some (v, r) =>
      match r with
      | [] => none
      | c :: r2 =>
        if c = ',' then (parseElemsP fuel r2).map (fun p => (v :: p.1, p.2))
        else if c = ']' then some ([v], r2)
        else none

/-- Parse a nonempty comma-separated object body up to the closing brace. -/
def parseFieldsP : Nat → List Char → Option (List (String × Json) × List Char)
  | 0, _ => none
  | fuel + 1, l =>
    match l with
    | [] => none
    | c0 :: r0 =>
      if c0 = '"' then
        match parseStr r0 with
        | none => none
        | some (k, r1) =>
          match r1 with
          | [] => none
          | c1 :: r2 =>
            if c1 = ':' then
              match parseJ fuel r2 with
              | none => none
              | some (v, r3) =>
                match r3 with
                | [] => none
                | c3 :: r4 =>
                  if c3 = ',' then
                    (parseFieldsP fuel r4).map (fun p => ((String.mk k, v) :: p.1, p.2))
                  else if c3 = '}' then some ([(String.mk k, v)], r4)
                  else none
            else none
      else none

end

mutual

/-- Fuel sufficient for `parseJ` to parse the printed form of a value. -/
def fuelJ : Json → Nat
  | .arr [] => 1
  | .arr (v :: vs) => 1 + fuelL v vs
  | .obj [] => 1
  | .obj (f :: fs) => 1 + fuelF f fs
  | _ => 1
termination_by v => sizeOf v
decreasing_by
  all_goals simp_wf
  all_goals omega

/-- Fuel sufficient for `parseElemsP` on a printed nonempty array body. -/
def fuelL : Json → List Json → Nat
  | v, [] => 1 + fuelJ v
  | v, w :: vs => 1 + max (fuelJ v) (fuelL w vs)
termination_by v vs => sizeOf v + sizeOf vs
decreasing_by
  all_goals simp_wf
  all_goals omega

/-- Fuel sufficient for `parseFieldsP` on a printed nonempty object body. -/
def fuelF : (String × Json) → List (String × Json) → Nat
  | (_, v), [] => 1 + fuelJ v
  | (_, v), f :: fs => 1 + max (fuelJ v) (fuelF f fs)
termination_by f fs => sizeOf f + sizeOf fs
decreasing_by
  all_goals simp_wf
  all_goals omega

end

/-- Serialize a value to its canonical JSON text. -/
def printJson (v : Json) : String := String.mk (printJ v)

/-- Parse a complete JSON text (the whole string must be consumed). -/
def parseJson (s : String) : Option Json :=
  match parseJ s.data.length s.data with
  | some (v, []) => some v
  | _ => none

/-- A list whose head is not a decimal digit (boundary condition after a
printed number). -/
def noDigitHead : List Char → Bool
  | [] => true
  | c :: _ => !isDigitC c

lemma char_ne_of_toNat_ne {a b : Char} (h : a.toNat ≠ b.toNat) : a ≠ b :=
  fun he => h (by rw [he])

lemma digitChar_toNat {d : Nat} (h : d < 10) : (digitChar d).toNat = 48 + d := by
  interval_cases d <;> decide

lemma isDigitC_digitChar {d : Nat} (h : d < 10) : isDigitC (digitChar d) = true := by
  interval_cases d <;> decide

lemma isDigitC_toNat {c : Char} (h : isDigitC c = true) : 48 ≤ c.toNat ∧ c.toNat ≤ 57 := by
  simpa [isDigitC, Bool.and_eq_true, decide_eq_true_eq] using h

lemma printNat_head (n : Nat) : ∃ c t, printNat n = c :: t ∧ isDigitC c = true := by
  induction n using Nat.strong_induction_on with
  | _ n ih =>
    rw [printNat]
    by_cases h : n < 10
    · exact ⟨digitChar n, [], by simp [h], isDigitC_digitChar h⟩
    · obtain ⟨c, t, hct, hc⟩ := ih (n / 10) (by omega)
      exact ⟨c, t ++ [digitChar (n % 10)], by simp [h, hct], hc⟩

lemma parseDigits_stop {l : List Char} (acc : Nat) (h : noDigitHead l = true) :
    parseDigits acc l = (acc, l) := by
  cases l with
  | nil => rfl
  | cons c rest =>
    simp only [noDigitHead, Bool.not_eq_true'] at h
    simp [parseDigits, h]

lemma parseDigits_printNat (n : Nat) : ∀ acc rest,
    parseDigits acc (printNat n ++ rest) =
      parseDigits (acc * 10 ^ (printNat n).length + n) rest := by
  induction n using Nat.strong_induction_on with
  | _ n ih =>
    intro acc rest
    rw [printNat]
    by_cases h : n < 10
    · simp only [if_pos h, List.singleton_append, List.length_singleton]
      rw [parseDigits]
      simp [isDigitC_digitChar h, digitChar_toNat h]
    · simp only [if_neg h, List.append_assoc, List.singleton_append, List.length_append,
        List.length_singleton]
      rw [ih (n / 10) (by omega)]
      have hm : n % 10 < 10 := by omega
      rw [parseDigits]
      rw [if_pos (isDigitC_digitChar hm), digitChar_toNat hm]
      congr 1
      have hp : (10 : Nat) ^ ((printNat (n / 10)).length + 1) =
          10 ^ (printNat (n / 10)).length * 10 := by ring
      rw [hp]
      generalize (10 : Nat) ^ (printNat (n / 10)).length = P
      have h1 : acc * (P * 10) = acc * P * 10 := by ring
      rw [h1]
      generalize acc * P = B
      omega

lemma parseNumber_digit {c : Char} (l : List Char) (h : isDigitC c = true) :
    parseNumber (c :: l) =
      some (((parseDigits 0 (c :: l)).1 : Int), (parseDigits 0 (c :: l)).2) := by
  have hne : c ≠ '-' := char_ne_of_toNat_ne (by
    have h1 := isDigitC_toNat h
    have h2 : ('-').toNat = 45 := rfl
    omega)
  rw [parseNumber.eq_def]
  dsimp only
  rw [if_neg hne, if_pos h]

lemma parseNumber_minus {c : Char} (l : List Char) (h : isDigitC c = true) :
    parseNumber ('-' :: c :: l) =
      some (-((parseDigits 0 (c :: l)).1 : Int), (parseDigits 0 (c :: l)).2) := by
  rw [parseNumber.eq_def]
  dsimp only
  rw [if_pos rfl, if_pos h]

lemma parseNumber_printInt (i : Int) (rest : List Char) (h : noDigitHead rest = true) :
    parseNumber (printInt i ++ rest) = some (i, rest) := by
  obtain ⟨c, t, hct, hc⟩ := printNat_head i.natAbs
  have hrw : printNat i.natAbs ++ rest = c :: (t ++ rest) := by rw [hct]; simp
  have hparse : parseDigits 0 (c :: (t ++ rest)) = (i.natAbs, rest) := by
    rw [← hrw, parseDigits_printNat, parseDigits_stop _ h]
    simp
  by_cases hneg : i < 0
  · rw [printInt, if_pos hneg, List.cons_append, hrw, parseNumber_minus _ hc, hparse]
    simp only [Option.some.injEq, Prod.mk.injEq]
    exact ⟨by omega, trivial⟩
  · rw [printInt, if_neg hneg, hrw, parseNumber_digit _ hc, hparse]
    simp only [Option.some.injEq, Prod.mk.injEq]
    exact ⟨by omega, trivial⟩

lemma parseStr_escape (s : List Char) (rest : List Char) :
    parseStr (escapeChars s ++ '"' :: rest) = some (s, rest) := by
  induction s with
  | nil =>
    show parseStr ('"' :: rest) = some ([], rest)
    rw [parseStr.eq_def]
    dsimp only
    rw [if_neg (by decide), if_pos rfl]
  | cons c cs ih =>
    by_cases h : c = '"' ∨ c = '\\'
    · have hesc : escapeChars (c :: cs) ++ '"' :: rest =
          '\\' :: c :: (escapeChars cs ++ '"' :: rest) := by
        rw [escapeChars, escChar, if_pos (by rcases h with h | h <;> simp [h])]
        simp
      rw [hesc, parseStr.eq_def]
      dsimp only
      rw [if_pos rfl]
      rw [ih]
      rfl
    · push_neg at h
      have hesc : escapeChars (c :: cs) ++ '"' :: rest =
          c :: (escapeChars cs ++ '"' :: rest) := by
        rw [escapeChars, escChar, if_neg (by simp [h.1, h.2])]
        simp
      rw [hesc, parseStr.eq_def]
      dsimp only
      rw [if_neg h.2, if_neg h.1, ih]
      rfl

lemma isDigit_ne_hi {c : Char} (h : isDigitC c = true) {d : Char} (hd : 57 < d.toNat) : c ≠ d :=
  char_ne_of_toNat_ne (by have := isDigitC_toNat h; omega)

lemma isDigit_ne_lo {c : Char} (h : isDigitC c = true) {d : Char} (hd : d.toNat < 48) : c ≠ d :=
  char_ne_of_toNat_ne (by have := isDigitC_toNat h; omega)

/-- The characters that can begin a printed JSON value. -/
def headOk (c : Char) : Prop :=
  c = 'n' ∨ c = 't' ∨ c = 'f' ∨ c = '"' ∨ c = '[' ∨ c = '{' ∨ c = '-' ∨ isDigitC c = true

lemma headOk_ne {c : Char} (h : headOk c) : c ≠ ']' ∧ c ≠ '}' ∧ c ≠ 'e' := by
  rcases h with h | h | h | h | h | h | h | h
  · exact h ▸ ⟨by decide, by decide, by decide⟩
  · exact h ▸ ⟨by decide, by decide, by decide⟩
  · exact h ▸ ⟨by decide, by decide, by decide⟩
  · exact h ▸ ⟨by decide, by decide, by decide⟩
  · exact h ▸ ⟨by decide, by decide, by decide⟩
  · exact h ▸ ⟨by decide, by decide, by decide⟩
  · exact h ▸ ⟨by decide, by decide, by decide⟩
  · exact ⟨isDigit_ne_hi h (by decide), isDigit_ne_hi h (by decide), isDigit_ne_hi h (by decide)⟩

lemma printInt_head (i : Int) : ∃ c t, printInt i = c :: t ∧ (c = '-' ∨ isDigitC c = true) := by
  obtain ⟨c, t, hct, hc⟩ := printNat_head i.natAbs
  by_cases h : i < 0
  · exact ⟨'-', printNat i.natAbs, by rw [printInt, if_pos h], Or.inl rfl⟩
  · exact ⟨c, t, by rw [printInt, if_neg h, hct], Or.inr hc⟩

lemma printJ_head (v : Json) : ∃ c t, printJ v = c :: t ∧ headOk c := by
  cases v with
  | null => exact ⟨'n', ['u', 'l', 'l'], by rw [printJ]; rfl, Or.inl rfl⟩
  | bool b =>
    cases b with
    | true => exact ⟨'t', ['r', 'u', 'e'], by rw [printJ]; rfl, Or.inr (Or.inl rfl)⟩
    | false =>
      exact ⟨'f', ['a', 'l', 's', 'e'], by rw [printJ]; rfl,
        Or.inr (Or.inr (Or.inl rfl))⟩
  | num n =>
    obtain ⟨c, t, hct, hc⟩ := printInt_head n
    refine ⟨c, t, by rw [printJ, hct], ?_⟩
    rcases hc with h | h
    · exact Or.inr (Or.inr (Or.inr (Or.inr (Or.inr (Or.inr (Or.inl h))))))
    · exact Or.inr (Or.inr (Or.inr (Or.inr (Or.inr (Or.inr (Or.inr h))))))
  | str s =>
    exact ⟨'"', escapeChars s.data ++ ['"'], by rw [printJ],
      Or.inr (Or.inr (Or.inr (Or.inl rfl)))⟩
  | arr l =>
    cases l with
    | nil => exact ⟨'[', [']'], by rw [printJ], Or.inr (Or.inr (Or.inr (Or.inr (Or.inl rfl))))⟩
    | cons v vs =>
      exact ⟨'[', printElems v vs ++ [']'], by rw [printJ],
        Or.inr (Or.inr (Or.inr (Or.inr (Or.inl rfl))))⟩
  | obj l =>
    cases l with
    | nil =>
      exact ⟨'{', ['}'], by rw [printJ],
        Or.inr (Or.inr (Or.inr (Or.inr (Or.inr (Or.inl rfl)))))⟩
    | cons f fs =>
      exact ⟨'{', printFields f fs ++ ['}'], by rw [printJ],
        Or.inr (Or.inr (Or.inr (Or.inr (Or.inr (Or.inl rfl)))))⟩

lemma printElems_head (v : Json) (vs : List Json) :
    ∃ c t, printElems v vs = c :: t ∧ headOk c := by
  obtain ⟨c, t, hct, hc⟩ := printJ_head v
  cases vs with
  | nil => exact ⟨c, t, by rw [printElems, hct], hc⟩
  | cons w ws => exact ⟨c, t ++ ',' :: printElems w ws, by rw [printElems, hct]; simp, hc⟩

lemma printFields_head (f : String × Json) (fs : List (String × Json)) :
    ∃ t, printFields f fs = '"' :: t := by
  obtain ⟨k, v⟩ := f
  cases fs with
  | nil => exact ⟨escapeChars k.data ++ '"' :: ':' :: printJ v, by rw [printFields]⟩
  | cons f2 fs2 =>
    exact ⟨(escapeChars k.data ++ '"' :: ':' :: printJ v) ++ ',' :: printFields f2 fs2,
      by rw [printFields]; simp⟩

lemma fuelJ_arr_cons (v : Json) (vs : List Json) :
    fuelJ (Json.arr (v :: vs)) = 1 + fuelL v vs := by
  rw [fuelJ.eq_def]

lemma fuelJ_obj_cons (f : String × Json) (fs : List (String × Json)) :
    fuelJ (Json.obj (f :: fs)) = 1 + fuelF f fs := by
  rw [fuelJ.eq_def]

lemma fuelL_nil (v : Json) : fuelL v [] = 1 + fuelJ v := by
  rw [fuelL.eq_def]

lemma fuelL_cons (v w : Json) (vs : List Json) :
    fuelL v (w :: vs) = 1 + max (fuelJ v) (fuelL w vs) := by
  rw [fuelL.eq_def]

lemma fuelF_nil (k : String) (v : Json) : fuelF (k, v) [] = 1 + fuelJ v := by
  rw [fuelF.eq_def]

lemma fuelF_cons (k : String) (v : Json) (f : String × Json) (fs : List (String × Json)) :
    fuelF (k, v) (f :: fs) = 1 + max (fuelJ v) (fuelF f fs) := by
  rw [fuelF.eq_def]

lemma one_le_fuelJ (v : Json) : 1 ≤ fuelJ v := by
  cases v with
  | arr l =>
    cases l with
    | nil => rw [fuelJ.eq_def]
    | cons v vs => rw [fuelJ_arr_cons]; omega
  | obj l =>
    cases l with
    | nil => rw [fuelJ.eq_def]
    | cons f fs => rw [fuelJ_obj_cons]; omega
  | null => rw [fuelJ.eq_def]
  | bool b => cases b <;> rw [fuelJ.eq_def]
  | num n => rw [fuelJ.eq_def]
  | str s => rw [fuelJ.eq_def]

lemma one_le_fuelL (v : Json) (vs : List Json) : 1 ≤ fuelL v vs := by
  cases vs with
  | nil => rw [fuelL_nil]; omega
  | cons w ws => rw [fuelL_cons]; omega

lemma one_le_fuelF (f : String × Json) (fs : List (String × Json)) : 1 ≤ fuelF f fs := by
  obtain ⟨k, v⟩ := f
  cases fs with
  | nil => rw [fuelF_nil]; omega
  | cons f2 fs2 => rw [fuelF_cons]; omega

lemma noDigitHead_cons (c : Char) (l : List Char) : noDigitHead (c :: l) = !isDigitC c := by
  rw [noDigitHead]

lemma roundtrip_all : ∀ fuel : Nat,
    (∀ v rest, fuelJ v ≤ fuel → noDigitHead rest = true →
      parseJ fuel (printJ v ++ rest) = some (v, rest)) ∧
    (∀ v vs rest, fuelL v vs ≤ fuel →
      parseElemsP fuel (printElems v vs ++ ']' :: rest) = some (v :: vs, rest)) ∧
    (∀ f fs rest, fuelF f fs ≤ fuel →
      parseFieldsP fuel (printFields f fs ++ '}' :: rest) = some (f :: fs, rest)) := by
  intro fuel
  induction fuel with
  | zero =>
    refine ⟨fun v rest hf _ => absurd hf (by have := one_le_fuelJ v; omega),
            fun v vs rest hf => absurd hf (by have := one_le_fuelL v vs; omega),
            fun f fs rest hf => absurd hf (by have := one_le_fuelF f fs; omega)⟩
  | succ fuel ih =>
    obtain ⟨ihJ, ihL, ihF⟩ := ih
    refine ⟨?_, ?_, ?_⟩
    · intro v rest hf hnd
      cases v with
      | null =>
        rw [printJ]
        simp [litNull, parseJ]
      | bool b =>
        cases b with
        | true => rw [printJ]; simp [litTrue, parseJ]
        | false => rw [printJ]; simp [litFalse, parseJ]
      | num n =>
        rw [printJ]
        obtain ⟨c, t, hct, hc⟩ := printInt_head n
        rw [hct, List.cons_append]
        simp only [parseJ]
        have hcs : c ≠ 'n' ∧ c ≠ 't' ∧ c ≠ 'f' ∧ c ≠ '"' ∧ c ≠ '[' ∧ c ≠ '{' := by
          rcases hc with h | h
          · exact h ▸ ⟨by decide, by decide, by decide, by decide, by decide, by decide⟩
          · exact ⟨isDigit_ne_hi h (by decide), isDigit_ne_hi h (by decide),
              isDigit_ne_hi h (by decide), isDigit_ne_lo h (by decide),
              isDigit_ne_hi h (by decide), isDigit_ne_hi h (by decide)⟩
        rw [if_neg hcs.1, if_neg hcs.2.1, if_neg hcs.2.2.1, if_neg hcs.2.2.2.1,
          if_neg hcs.2.2.2.2.1, if_neg hcs.2.2.2.2.2]
        rw [← List.cons_append, ← hct, parseNumber_printInt n rest hnd]
        rfl
      | str s =>
        rw [printJ]
        rw [List.cons_append]
        simp only [parseJ]
        rw [if_pos trivial]
        rw [List.append_assoc, List.singleton_append, parseStr_escape]
        rfl
      | arr l =>
        cases l with
        | nil =>
          rw [printJ]
          simp [parseJ]
        | cons w ws =>
          rw [printJ]
          rw [List.cons_append]
          simp only [parseJ]
          rw [if_pos trivial]
          rw [List.append_assoc, List.singleton_append]
          obtain ⟨c, t, hct, hc⟩ := printElems_head w ws
          rw [hct, List.cons_append]
          dsimp only
          rw [if_neg (headOk_ne hc).1]
          rw [← List.cons_append, ← hct,
            ihL w ws rest (by rw [fuelJ_arr_cons] at hf; omega)]
          rfl
      | obj l =>
        cases l with
        | nil =>
          rw [printJ]
          simp [parseJ]
        | cons f fs =>
          rw [printJ]
          rw [List.cons_append]
          simp only [parseJ]
          rw [if_pos trivial]
          rw [List.append_assoc, List.singleton_append]
          obtain ⟨t, hct⟩ := printFields_head f fs
          rw [hct, List.cons_append]
          dsimp only
          rw [if_neg (by decide : ('"' : Char) ≠ '}')]
          rw [← List.cons_append, ← hct,
            ihF f fs rest (by rw [fuelJ_obj_cons] at hf; omega)]
          rfl
    · intro v vs rest hf
      cases vs with
      | nil =>
        rw [printElems]
        simp only [parseElemsP]
        rw [ihJ v (']' :: rest) (by rw [fuelL_nil] at hf; omega)
          (by rw [noDigitHead_cons]; decide)]
        dsimp only
        rw [if_neg (by decide : (']' : Char) ≠ ','), if_pos rfl]
      | cons w ws =>
        rw [printElems]
        rw [List.append_assoc, List.cons_append]
        simp only [parseElemsP]
        have hm : max (fuelJ v) (fuelL w ws) ≤ fuel := by rw [fuelL_cons] at hf; omega
        have hmm := Nat.max_le.mp hm
        rw [ihJ v _ hmm.1 (by rw [noDigitHead_cons]; decide)]
        dsimp only
        rw [if_pos rfl, ihL w ws rest hmm.2]
        rfl
    · intro f fs rest hf
      obtain ⟨k, v⟩ := f
      cases fs with
      | nil =>
        rw [printFields]
        rw [List.cons_append]
        simp only [parseFieldsP]
        rw [if_pos trivial]
        rw [List.append_assoc]
        have hsh : ('"' :: ':' :: printJ v) ++ '}' :: rest =
            '"' :: (':' :: (printJ v ++ '}' :: rest)) := by simp
        rw [hsh, parseStr_escape]
        dsimp only
        rw [if_pos rfl]
        rw [ihJ v ('}' :: rest) (by rw [fuelF_nil] at hf; omega)
          (by rw [noDigitHead_cons]; decide)]
        dsimp only
        rw [if_neg (by decide : ('}' : Char) ≠ ','), if_pos rfl]
      | cons f2 fs2 =>
        rw [printFields]
        rw [List.append_assoc, List.cons_append, List.cons_append]
        simp only [parseFieldsP]
        rw [if_pos trivial]
        rw [List.append_assoc]
        have hm : max (fuelJ v) (fuelF f2 fs2) ≤ fuel := by rw [fuelF_cons] at hf; omega
        have hmm := Nat.max_le.mp hm
        have hsh : ('"' :: ':' :: printJ v) ++ ',' :: (printFields f2 fs2 ++ '}' :: rest) =
            '"' :: (':' :: (printJ v ++ ',' :: (printFields f2 fs2 ++ '}' :: rest))) := by simp
        rw [hsh, parseStr_escape]
        dsimp only
        rw [if_pos rfl]
        rw [ihJ v _ hmm.1 (by rw [noDigitHead_cons]; decide)]
        dsimp only
        rw [if_pos rfl, ihF f2 fs2 rest hmm.2]
        rfl

lemma fuelJ_null : fuelJ Json.null = 1 := by rw [fuelJ.eq_def]

lemma fuelJ_bool (b : Bool) : fuelJ (Json.bool b) = 1 := by cases b <;> rw [fuelJ.eq_def]

lemma fuelJ_num (m : Int) : fuelJ (Json.num m) = 1 := by rw [fuelJ.eq_def]

lemma fuelJ_str (s : String) : fuelJ (Json.str s) = 1 := by rw [fuelJ.eq_def]

lemma fuelJ_arr_nil : fuelJ (Json.arr []) = 1 := by rw [fuelJ.eq_def]

lemma fuelJ_obj_nil : fuelJ (Json.obj []) = 1 := by rw [fuelJ.eq_def]

lemma json_sizeOf_pos (v : Json) : 1 ≤ sizeOf v := by
  cases v <;> simp_arith

lemma fuel_le_len : ∀ n : Nat,
    (∀ v : Json, sizeOf v ≤ n → fuelJ v ≤ (printJ v).length) ∧
    (∀ (v : Json) (vs : List Json), sizeOf v + sizeOf vs ≤ n →
      fuelL v vs ≤ (printElems v vs).length + 1) ∧
    (∀ (f : String × Json) (fs : List (String × Json)), sizeOf f + sizeOf fs ≤ n →
      fuelF f fs ≤ (printFields f fs).length + 1) := by
  intro n
  induction n using Nat.strong_induction_on with
  | _ n ih =>
    refine ⟨?_, ?_, ?_⟩
    · intro v hv
      cases v with
      | null => rw [printJ, fuelJ_null]; simp [litNull]
      | bool b => cases b <;> (rw [printJ, fuelJ_bool]; simp [litTrue, litFalse])
      | num m =>
        rw [printJ, fuelJ_num]
        obtain ⟨c, t, hct, _⟩ := printInt_head m
        rw [hct]
        simp
      | str s => rw [printJ, fuelJ_str]; simp
      | arr l =>
        cases l with
        | nil => rw [printJ, fuelJ_arr_nil]; simp
        | cons w ws =>
          rw [printJ, fuelJ_arr_cons]
          have hsz : sizeOf w + sizeOf ws < n := by
            have h1 : sizeOf (Json.arr (w :: ws)) = 1 + (1 + sizeOf w + sizeOf ws) := by
              simp
            omega
          have h2 := (ih _ hsz).2.1 w ws (le_refl _)
          simp only [List.length_cons, List.length_append, List.length_singleton]
          omega
      | obj l =>
        cases l with
        | nil => rw [printJ, fuelJ_obj_nil]; simp
        | cons f fs =>
          rw [printJ, fuelJ_obj_cons]
          have hsz : sizeOf f + sizeOf fs < n := by
            have h1 : sizeOf (Json.obj (f :: fs)) = 1 + (1 + sizeOf f + sizeOf fs) := by
              simp
            omega
          have h2 := (ih _ hsz).2.2 f fs (le_refl _)
          simp only [List.length_cons, List.length_append, List.length_singleton]
          omega
    · intro v vs hv
      cases vs with
      | nil =>
        rw [printElems, fuelL_nil]
        have hsz : sizeOf v < n := by
          have h1 : sizeOf ([] : List Json) = 1 := by simp
          omega
        have h2 := (ih _ hsz).1 v (le_refl _)
        omega
      | cons w ws =>
        rw [printElems, fuelL_cons]
        have hszv : sizeOf v < n := by
          have h1 : sizeOf (w :: ws) = 1 + sizeOf w + sizeOf ws := by simp
          have := json_sizeOf_pos w
          omega
        have hszw : sizeOf w + sizeOf ws < n := by
          have h1 : sizeOf (w :: ws) = 1 + sizeOf w + sizeOf ws := by simp
          have := json_sizeOf_pos v
          omega
        have h2 := (ih _ hszv).1 v (le_refl _)
        have h3 := (ih _ hszw).2.1 w ws (le_refl _)
        have h4 : max (fuelJ v) (fuelL w ws) ≤
            (printJ v).length + ((printElems w ws).length + 1) :=
          max_le (by omega) (by omega)
        simp only [List.length_append, List.length_cons]
        omega
    · intro f fs hv
      obtain ⟨k, val⟩ := f
      cases fs with
      | nil =>
        rw [printFields, fuelF_nil]
        have hsz : sizeOf val < n := by
          have h1 : sizeOf (k, val) = 1 + sizeOf k + sizeOf val := by simp
          have h2 : sizeOf ([] : List (String × Json)) = 1 := by simp
          omega
        have h2 := (ih _ hsz).1 val (le_refl _)
        simp only [List.length_cons, List.length_append]
        omega
      | cons f2 fs2 =>
        rw [printFields, fuelF_cons]
        have h1 : sizeOf (k, val) = 1 + sizeOf k + sizeOf val := by simp
        have h0 : sizeOf (f2 :: fs2) = 1 + sizeOf f2 + sizeOf fs2 := by simp
        have hszv : sizeOf val < n := by omega
        have hszf : sizeOf f2 + sizeOf fs2 < n := by omega
        have h2 := (ih _ hszv).1 val (le_refl _)
        have h3 := (ih _ hszf).2.2 f2 fs2 (le_refl _)
        have h4 : max (fuelJ val) (fuelF f2 fs2) ≤
            (printJ val).length + ((printFields f2 fs2).length + 1) :=
          max_le (by omega) (by omega)
        simp only [List.length_append, List.length_cons]
        omega

/-- Round-trip: parsing a printed JSON value recovers the value
(`JSON.parse(JSON.stringify(v)) == v`). -/
theorem parseJson_printJson (v : Json) : parseJson (printJson v) = some v := by
  have hlen : fuelJ v ≤ (printJ v).length := (fuel_le_len (sizeOf v)).1 v (le_refl _)
  have h := (roundtrip_all (printJ v).length).1 v [] hlen (by rfl)
  rw [List.append_nil] at h
  show (match parseJ (printJ v).length (printJ v) with
    | some (w, []) => some w
    | _ => none) = some v
  rw [h]

/-- The base64 alphabet character for `n < 64`. -/
def b64c (n : Nat) : Char :=
  Char.ofNat (if n < 26 then 65 + n else if n < 52 then 97 + (n - 26)
    else if n < 62 then 48 + (n - 52) else if n = 62 then 43 else 47)

/-- Whether a character belongs to the base64 alphabet. -/
def isB64 (c : Char) : Bool :=
  (65 ≤ c.toNat && c.toNat ≤ 90) || (97 ≤ c.toNat && c.toNat ≤ 122) ||
  (48 ≤ c.toNat && c.toNat ≤ 57) || c.toNat = 43 || c.toNat = 47

/-- Inverse of `b64c` on the base64 alphabet. -/
def b64v (c : Char) : Nat :=
  if 65 ≤ c.toNat && c.toNat ≤ 90 then c.toNat - 65
  else if 97 ≤ c.toNat && c.toNat ≤ 122 then c.toNat - 97 + 26
  else if 48 ≤ c.toNat && c.toNat ≤ 57 then c.toNat - 48 + 52
  else if c.toNat = 43 then 62
  else 63

lemma b64v_b64c {n : Nat} (h : n < 64) : b64v (b64c n) = n := by
  interval_cases n <;> decide

lemma isB64_b64c {n : Nat} (h : n < 64) : isB64 (b64c n) = true := by
  interval_cases n <;> decide

lemma char_toNat_lt (c : Char) : c.toNat < 1114112 := by
  have h := c.valid
  show c.val.toNat < 1114112
  rcases h with h | ⟨_, h2⟩
  · exact Nat.lt_trans h (by norm_num)
  · exact h2

/-- Modelled from the spec: one character of the symmetric authenticated
cipher's output. The repository does not ship `secure-storage.ts`; per the
spec the cipher produces a base64 ciphertext field, so it is modelled as an
injective encoding of each serialized character into four base64 digits
(deterministic invertibility and alphabet are the properties the claims
use; cryptographic strength is outside a shallow embedding). -/
def encChar4 (c : Char) : List Char :=
  [b64c (c.toNat / 262144 % 64), b64c (c.toNat / 4096 % 64),
   b64c (c.toNat / 64 % 64), b64c (c.toNat % 64)]

/-- Cipher encoding of a character sequence. -/
def encList : List Char → List Char
  | [] => []
  | c :: cs => encChar4 c ++ encList cs

/-- Cipher decoding; inverse of `encList`. -/
def decList : List Char → List Char
  | a :: b :: c :: d :: rest =>
      Char.ofNat (b64v a * 262144 + b64v b * 4096 + b64v c * 64 + b64v d) :: decList rest
  | _ => []

lemma decList_encList (l : List Char) : decList (encList l) = l := by
  induction l with
  | nil => rfl
  | cons c cs ih =>
    rw [encList, encChar4]
    show decList (b64c _ :: b64c _ :: b64c _ :: b64c _ :: encList cs) = c :: cs
    rw [decList]
    rw [b64v_b64c (by omega), b64v_b64c (by omega), b64v_b64c (by omega), b64v_b64c (by omega)]
    have hc := char_toNat_lt c
    have heq : c.toNat / 262144 % 64 * 262144 + c.toNat / 4096 % 64 * 4096 +
        c.toNat / 64 % 64 * 64 + c.toNat % 64 = c.toNat := by omega
    rw [heq, Char.ofNat_toNat, ih]

lemma encList_b64 (l : List Char) : ∀ c ∈ encList l, isB64 c = true := by
  induction l with
  | nil => intro c hc; cases hc
  | cons x xs ih =>
    intro c hc
    rw [encList, encChar4] at hc
    simp only [List.cons_append, List.nil_append, List.mem_cons] at hc
    rcases hc with h | h | h | h | h
    · exact h ▸ isB64_b64c (by omega)
    · exact h ▸ isB64_b64c (by omega)
    · exact h ▸ isB64_b64c (by omega)
    · exact h ▸ isB64_b64c (by omega)
    · exact ih c h

lemma isB64_ne_dot {c : Char} (h : isB64 c = true) : c ≠ '.' := by
  intro he
  subst he
  exact absurd h (by decide)

/-- Split a character list at the first dot. -/
def splitDot : List Char → Option (List Char × List Char)
  | [] => none
  | c :: rest =>
    if c = '.' then some ([], rest)
    else (splitDot rest).map (fun p => (c :: p.1, p.2))

lemma splitDot_append (pre : List Char) (h : ∀ c ∈ pre, c ≠ '.') (suf : List Char) :
    splitDot (pre ++ '.' :: suf) = some (pre, suf) := by
  induction pre with
  | nil =>
    rw [List.nil_append, splitDot]
    simp
  | cons c cs ih =>
    rw [List.cons_append, splitDot]
    rw [if_neg (h c (by simp))]
    rw [ih (fun d hd => h d (by simp [hd]))]
    rfl

/-- Parse a complete JSON text given as a character list. -/
def parseJsonList (l : List Char) : Option Json :=
  match parseJ l.length l with
  | some (v, []) => some v
  | _ => none

lemma parseJsonList_printJ (v : Json) : parseJsonList (printJ v) = some v := by
  have hlen : fuelJ v ≤ (printJ v).length := (fuel_le_len (sizeOf v)).1 v (le_refl _)
  have h := (roundtrip_all (printJ v).length).1 v [] hlen (by rfl)
  rw [List.append_nil] at h
  rw [parseJsonList, h]

/-- Metadata values callers may pass when creating an audit entry (spec
section 3): primitives are allowed; objects, arrays and binary payloads
(audio/image Blobs, modelled by their byte size) violate the structural
allow-list. -/
inductive MetaValue where
  | bool (b : Bool) : MetaValue
  | num (n : Int) : MetaValue
  | str (s : String) : MetaValue
  | obj (fields : List (String × MetaValue)) : MetaValue
  | arr (elems : List MetaValue) : MetaValue
  | bin (size : Nat) : MetaValue

/-- Modelled from the spec: the fixed length cap for metadata string values
("strings under a fixed length cap"); the spec does not pin the number, so
the model fixes one. -/
def metadataStringCap : Nat := 256

/-- The structural allow-list for one metadata value (spec section 4.2):
primitive booleans and finite numbers, and strings no longer than the cap;
objects, arrays and binary payloads are rejected. -/
def metaOk : MetaValue → Bool
  | .bool _ => true
  | .num _ => true
  | .str s => decide (s.length ≤ metadataStringCap)
  | .obj _ => false
  | .arr _ => false
  | .bin _ => false

/-- Modelled from the spec: the deterministic sanitization choice — strip
every metadata field whose value violates the allow-list (spec section 8,
open question resolved to "strip"). -/
def sanitizeMetadata (m : List (String × MetaValue)) : List (String × MetaValue) :=
  m.filter (fun p => metaOk p.2)

/-- One audit record (spec section 3). Timestamps are epoch milliseconds. -/
structure AuditLogEntry where
  id : String
  timestamp : Nat
  event_type : String
  resource_id : Option String
  success : Bool
  error_message : Option String
  user_id : String
  metadata : Option (List (String × MetaValue))

/-- Caller-supplied fields for `writeAuditEntry`. -/
structure AuditEntryInput where
  event_type : String
  resource_id : Option String := none
  success : Option Bool := none
  error_message : Option String := none
  metadata : Option (List (String × MetaValue)) := none

/-- An entry whose metadata satisfies the structural allow-list. -/
def entryOk (e : AuditLogEntry) : Bool :=
  match e.metadata with
  | none => true
  | some m => m.all (fun p => metaOk p.2)

/-- Serialize an allow-listed metadata value. -/
def metaToJson : MetaValue → Json
  | .bool b => .bool b
  | .num n => .num n
  | .str s => .str s
  | .obj _ => .null
  | .arr _ => .null
  | .bin _ => .null

/-- Decode a primitive metadata value. -/
def metaOfJson : Json → Option MetaValue
  | .bool b => some (.bool b)
  | .num n => some (.num n)
  | .str s => some (.str s)
  | _ => none

lemma metaOfJson_metaToJson {v : MetaValue} (h : metaOk v = true) :
    metaOfJson (metaToJson v) = some v := by
  cases v <;> simp_all [metaOk, metaToJson, metaOfJson]

/-- Decode a metadata field list. -/
def metaFieldsOfJson : List (String × Json) → Option (List (String × MetaValue))
  | [] => some []
  | (k, v) :: rest =>
    match metaOfJson v, metaFieldsOfJson rest with
    | some mv, some ms => some ((k, mv) :: ms)
    | _, _ => none

lemma metaFieldsOfJson_map (m : List (String × MetaValue))
    (h : ∀ p ∈ m, metaOk p.2 = true) :
    metaFieldsOfJson (m.map (fun p => (p.1, metaToJson p.2))) = some m := by
  induction m with
  | nil => rfl
  | cons p ps ih =>
    obtain ⟨k, v⟩ := p
    rw [List.map_cons, metaFieldsOfJson]
    rw [metaOfJson_metaToJson (h (k, v) (by simp)), ih (fun q hq => h q (by simp [hq]))]

/-- JSON form of an optional string field (`null` when absent). -/
def optStrJson : Option String → Json
  | some s => .str s
  | none => .null

/-- Decode an optional string field. -/
def optStrOfJson : Json → Option (Option String)
  | .null => some none
  | .str s => some (some s)
  | _ => none

/-- JSON form of the optional metadata mapping. -/
def optMetaJson : Option (List (String × MetaValue)) → Json
  | some m => .obj (m.map (fun p => (p.1, metaToJson p.2)))
  | none => .null

/-- Decode the optional metadata mapping. -/
def optMetaOfJson : Json → Option (Option (List (String × MetaValue)))
  | .null => some none
  | .obj mf => (metaFieldsOfJson mf).map some
  | _ => none

/-- Serialize one audit entry to its persisted JSON object. -/
def entryToJson (e : AuditLogEntry) : Json :=
  .obj [("id", .str e.id), ("timestamp", .num e.timestamp),
        ("event_type", .str e.event_type), ("resource_id", optStrJson e.resource_id),
        ("success", .bool e.success), ("error_message", optStrJson e.error_message),
        ("user_id", .str e.user_id), ("metadata", optMetaJson e.metadata)]

/-- Decode one audit entry from its persisted JSON object. -/
def entryOfJson : Json → Option AuditLogEntry
  | .obj [("id", .str i), ("timestamp", .num ts), ("event_type", .str et),
          ("resource_id", rid), ("success", .bool sc), ("error_message", errm),
          ("user_id", .str uid), ("metadata", md)] =>
    match ts, optStrOfJson rid, optStrOfJson errm, optMetaOfJson md with
    | .ofNat tsn, some r, some m, some mm => some ⟨i, tsn, et, r, sc, m, uid, mm⟩
    | _, _, _, _ => none
  | _ => none

lemma entryOfJson_entryToJson {e : AuditLogEntry} (h : entryOk e = true) :
    entryOfJson (entryToJson e) = some e := by
  obtain ⟨i, ts, et, rid, sc, errm, uid, md⟩ := e
  rw [entryToJson]
  simp only [entryOfJson]
  have hrid : optStrOfJson (optStrJson rid) = some rid := by cases rid <;> rfl
  have herr : optStrOfJson (optStrJson errm) = some errm := by cases errm <;> rfl
  have hmd : optMetaOfJson (optMetaJson md) = some md := by
    cases md with
    | none => rfl
    | some m =>
      rw [optMetaJson, optMetaOfJson]
      rw [metaFieldsOfJson_map m (by
        intro p hp
        rw [entryOk] at h
        simpa using List.all_eq_true.mp h p hp)]
      rfl
  rw [hrid, herr, hmd]

/-- Decode a list of persisted entry objects. -/
def entryListOfJson : List Json → Option (List AuditLogEntry)
  | [] => some []
  | j :: rest =>
    match entryOfJson j, entryListOfJson rest with
    | some e, some es => some (e :: es)
    | _, _ => none

/-- Serialize the audit log (the whole ordered entry sequence). -/
def entriesToJson (l : List AuditLogEntry) : Json :=
  .arr (l.map entryToJson)

/-- Decode the audit log; a missing value (`null`) is the empty log. -/
def jsonToEntries : Json → Option (List AuditLogEntry)
  | .null => some []
  | .arr items => entryListOfJson items
  | _ => none

lemma jsonToEntries_entriesToJson {l : List AuditLogEntry}
    (h : ∀ e ∈ l, entryOk e = true) :
    jsonToEntries (entriesToJson l) = some l := by
  rw [entriesToJson, jsonToEntries]
  induction l with
  | nil => rfl
  | cons e es ih =>
    rw [List.map_cons, entryListOfJson]
    rw [entryOfJson_entryToJson (h e (by simp)), ih (fun x hx => h x (by simp [hx]))]

/-- Error taxonomy of the Secure Envelope Codec and persistence layer
(spec section 7). -/
inductive SecError where
  | keyMissing : SecError
  | keyInvalidLength (len : Nat) : SecError
  | decryptionFailed : SecError
  | storageFailure (msg : String) : SecError
deriving DecidableEq

/-- Audit-engine error taxonomy (spec section 7): `flushFailed` wraps and
propagates the underlying storage error of a failed batch write. -/
inductive AuditError where
  | flushFailed (cause : SecError) : AuditError
  | storageError (cause : SecError) : AuditError
deriving DecidableEq

/-- Modelled from the spec: the process state visible to the secure-storage
module (`secure-storage.ts`, absent from the repository; modelled from spec
sections 4.1 and 6 and its test file) and to the audit-log engine
(`audit-log.ts`, absent; modelled from spec sections 4.2-4.6 and its test
file). `encKey` is the externally configured symmetric key bytes
(`NEXT_PUBLIC_SECURE_STORAGE_KEY`); `store` is `localStorage` as an
association list; `storeBroken` injects a persistence write failure (as the
tests do by making `setItem` throw "Storage quota exceeded"); `queue` is
the in-memory write-batching buffer; `retentionDays` the process-wide
retention policy; `uuidCounter` drives id generation. -/
structure AppState where
  encKey : Option (List Nat)
  store : List (String × String)
  storeBroken : Bool
  queue : List AuditLogEntry
  retentionDays : Nat
  uuidCounter : Nat

/-- `localStorage.getItem`. -/
def getItem (k : String) : List (String × String) → Option String
  | [] => none
  | (k2, v) :: rest => if k2 = k then some v else getItem k rest

/-- `localStorage.setItem` (replace or append). -/
def setItem (k v : String) : List (String × String) → List (String × String)
  | [] => [(k, v)]
  | (k2, v2) :: rest => if k2 = k then (k, v) :: rest else (k2, v2) :: setItem k v rest

lemma getItem_setItem (k v : String) (m : List (String × String)) :
    getItem k (setItem k v m) = some v := by
  induction m with
  | nil => simp [getItem, setItem]
  | cons p rest ih =>
    obtain ⟨k2, v2⟩ := p
    rw [setItem]
    by_cases h : k2 = k
    · rw [if_pos h, getItem, if_pos rfl]
    · rw [if_neg h, getItem, if_neg h, ih]


/-- The version tag of the current envelope version, as characters. -/
def encTagV2 : List Char := ['e', 'n', 'c', '.', 'v', '2', '.']

/-- The version tag of the older recognized envelope version. -/
def encTagV1 : List Char := ['e', 'n', 'c', '.', 'v', '1', '.']

/-- Modelled from the spec: the IV/nonce field of a sealed envelope. The
real code generates a fresh random nonce per seal; randomness is not
statable in a shallow embedding and no claim depends on nonce freshness, so
the model fixes the field (sixteen base64 characters, the encoded length of
a 12-byte GCM nonce). -/
def ivField : String := "AAAAAAAAAAAAAAAA"

/-- Cipher encoding at the string level. -/
def encryptString (s : String) : String := String.mk (encList s.data)

/-- `seal` at the current envelope version (spec sections 4.1 and 6):
`enc.v2.<base64 iv>.<base64 ciphertext>`. -/
def sealV2 (v : Json) : String :=
  "enc.v2." ++ ivField ++ "." ++ encryptString (printJson v)

/-- A version-1 envelope (the older recognized, read-compatible version). -/
def sealV1 (v : Json) : String :=
  "enc.v1." ++ ivField ++ "." ++ encryptString (printJson v)

/-- Check the configured key (spec: `KeyMissing` when absent,
`KeyInvalidLength` when not the cipher's 32-byte key size; never silently
defaulted). -/
def getKeyChecked (st : AppState) : Except SecError (List Nat) :=
  match st.encKey with
  | none => .error .keyMissing
  | some key =>
    if key.length = 32 then .ok key else .error (.keyInvalidLength key.length)

/-- Modelled from the spec: `saveSecureItem` of `secure-storage.ts` (absent
from the repository; spec sections 4.1 and 6, secure-storage tests lines
52-95): serialize to JSON, seal at the current version, store under the
key. Fails with the codec's key errors, or a storage failure when the
persistence layer throws. -/
def saveSecureItem (k : String) (v : Json) (st : AppState) : Except SecError AppState :=
  match getKeyChecked st with
  | .error e => .error e
  | .ok _ =>
    if st.storeBroken then .error (.storageFailure "Storage quota exceeded")
    else .ok { st with store := setItem k (sealV2 v) st.store }

/-- Decrypt and parse the body of an envelope (after the version tag):
split the iv field from the ciphertext at the dot, decode the rest. -/
def decodeEnvelopeBody (body : List Char) : Option Json :=
  match splitDot body with
  | none => none
  | some (_, ct) => parseJsonList (decList ct)

/-- Modelled from the spec: `loadSecureItem` of `secure-storage.ts` (absent
from the repository; spec sections 4.1 and 6, secure-storage tests lines
97-134 and 157-165): a missing key loads as `null`; a current-version
envelope is opened in place; an older recognized version or legacy
plaintext JSON is decoded and transparently re-sealed at the current
version (lazy migration); an unparseable payload fails with
`DecryptionFailed`. -/
def loadSecureItem (k : String) (st : AppState) : Except SecError (Json × AppState) :=
  match getItem k st.store with
  | none => .ok (.null, st)
  | some s =>
    if encTagV2.isPrefixOf s.data then
      match getKeyChecked st with
      | .error e => .error e
      | .ok _ =>
        match decodeEnvelopeBody (s.data.drop 7) with
        | some v => .ok (v, st)
        | none => .error .decryptionFailed
    else if encTagV1.isPrefixOf s.data then
      match getKeyChecked st with
      | .error e => .error e
      | .ok _ =>
        match decodeEnvelopeBody (s.data.drop 7) with
        | some v => (saveSecureItem k v st).map (fun st2 => (v, st2))
        | none => .error .decryptionFailed
    else
      match parseJsonList s.data with
      | some v => (saveSecureItem k v st).map (fun st2 => (v, st2))
      | none => .error .decryptionFailed

/-- The single fixed storage key holding the audit log (spec section 6). -/
def auditKey : String := "openscribe_audit_logs"

/-- Persist the full entry sequence through the envelope codec. -/
def saveLog (l : List AuditLogEntry) (st : AppState) : Except SecError AppState :=
  saveSecureItem auditKey (entriesToJson l) st

/-- Load and decode the persisted audit log (empty when nothing stored). -/
def loadLogOrEmpty (st : AppState) : Except SecError (List AuditLogEntry × AppState) :=
  match loadSecureItem auditKey st with
  | .error e => .error e
  | .ok (j, st2) =>
    match jsonToEntries j with
    | some l => .ok (l, st2)
    | none => .error .decryptionFailed

/-- Modelled from the spec: entry construction (spec section 4.2): fills
`id` (from the process uuid counter), `timestamp` (now), the fixed
single-user sentinel `user_id`, defaults `success` to true when omitted,
and strips metadata fields violating the structural allow-list. -/
def mkEntry (input : AuditEntryInput) (now : Nat) (ctr : Nat) : AuditLogEntry :=
  { id := "uuid-" ++ Nat.repr ctr
  , timestamp := now
  , event_type := input.event_type
  , resource_id := input.resource_id
  , success := input.success.getD true
  , error_message := input.error_message
  , user_id := "local-user"
  , metadata := input.metadata.map sanitizeMetadata }

/-- Modelled from the spec: `writeAuditEntry` (spec sections 4.2-4.3, audit
tests lines 66-81): construct the entry and append it to the in-memory
write queue; returns immediately without persisting. -/
def writeAuditEntry (input : AuditEntryInput) (now : Nat) (st : AppState) :
    AuditLogEntry × AppState :=
  let e := mkEntry input now st.uuidCounter
  (e, { st with queue := st.queue ++ [e], uuidCounter := st.uuidCounter + 1 })

/-- Modelled from the spec: `flushAuditQueue` (spec section 4.3, audit
tests lines 421-439): a no-op on an empty buffer; otherwise snapshot and
clear the buffer and perform one read-modify-write of the persisted log,
failing with `FlushFailed` (propagating the storage error) when
persistence fails. -/
def flushAuditQueue (st : AppState) : Except AuditError AppState :=
  match st.queue with
  | [] => .ok st
  | _ =>
    match loadLogOrEmpty st with
    | .error e => .error (.flushFailed e)
    | .ok (existing, st1) =>
      match saveLog (existing ++ st.queue) { st1 with queue := [] } with
      | .error e => .error (.flushFailed e)
      | .ok st2 => .ok st2

/-- Query filter (spec section 4.4): all bounds optional, conjunctive. -/
structure AuditFilter where
  startDate : Option Nat := none
  endDate : Option Nat := none
  eventTypes : Option (List String) := none
  success : Option Bool := none
  resourceId : Option String := none
  limit : Option Nat := none

/-- Whether an entry matches a filter (spec section 4.4: inclusive
timestamp bounds, event-type membership, exact success and resource-id
match, all combined conjunctively). -/
def matchesFilter (f : AuditFilter) (e : AuditLogEntry) : Bool :=
  (match f.startDate with | some t => decide (t ≤ e.timestamp) | none => true) &&
  (match f.endDate with | some t => decide (e.timestamp ≤ t) | none => true) &&
  (match f.eventTypes with | some ts => ts.contains e.event_type | none => true) &&
  (match f.success with | some b => e.success == b | none => true) &&
  (match f.resourceId with | some r => e.resource_id == some r | none => true)

/-- Newest-timestamp-first ordering on entries. -/
def newerFirst (a b : AuditLogEntry) : Prop := b.timestamp ≤ a.timestamp

instance : DecidableRel newerFirst := fun a b => Nat.decLe b.timestamp a.timestamp

instance : IsTotal AuditLogEntry newerFirst :=
  ⟨fun a b => Nat.le_total b.timestamp a.timestamp⟩

instance : IsTrans AuditLogEntry newerFirst :=
  ⟨fun _ _ _ hab hbc => Nat.le_trans hbc hab⟩

/-- Modelled from the spec: `getAuditEntries` (spec section 4.4, audit
tests lines 96-194): force a flush first (read-your-writes), then load,
decrypt, filter, sort newest-timestamp-first, and apply the limit. -/
def getAuditEntries (f : AuditFilter) (st : AppState) :
    Except AuditError (List AuditLogEntry × AppState) :=
  match flushAuditQueue st with
  | .error e => .error e
  | .ok st1 =>
    match loadLogOrEmpty st1 with
    | .error e => .error (.storageError e)
    | .ok (l, st2) =>
      let sorted := List.insertionSort newerFirst (l.filter (matchesFilter f))
      .ok ((match f.limit with | some n => sorted.take n | none => sorted), st2)

/-- Modelled from the spec: `purgeAllAuditLogs` (spec section 4.4, audit
tests lines 312-327): delete all persisted entries, then persist a single
new entry recording the purge itself (`event_type = audit.purged`,
`metadata.manual_purge = true`) — the purge is never fully silent. -/
def purgeAllAuditLogs (st : AppState) (now : Nat) : Except SecError AppState :=
  let e := mkEntry { event_type := "audit.purged",
                     metadata := some [("manual_purge", .bool true)] } now st.uuidCounter
  saveLog [e] { st with uuidCounter := st.uuidCounter + 1 }

/-- Milliseconds per day. -/
def msPerDay : Nat := 86400000

/-- Modelled from the spec: `cleanupOldAuditEntries` (spec section 4.4,
audit tests lines 260-310): remove every persisted entry strictly older
than now minus the retention window, return the exact removed count, and
record the cleanup with an `audit.purged` entry carrying
`metadata.retention_days` only when something was removed. -/
def cleanupOldAuditEntries (st : AppState) (now : Nat) :
    Except SecError (Nat × AppState) :=
  match loadLogOrEmpty st with
  | .error e => .error e
  | .ok (l, st1) =>
    let cutoff := now - st.retentionDays * msPerDay
    let kept := l.filter (fun e => decide (cutoff ≤ e.timestamp))
    let removed := l.length - kept.length
    if removed = 0 then .ok (0, st1)
    else
      let ce := mkEntry { event_type := "audit.purged",
                          metadata := some [("retention_days", .num st.retentionDays)] }
                  now st1.uuidCounter
      match saveLog (kept ++ [ce]) { st1 with uuidCounter := st1.uuidCounter + 1 } with
      | .error e => .error e
      | .ok st2 => .ok (removed, st2)

/-- Descriptor for `withAudit` (spec section 4.6). -/
structure AuditDescriptor where
  event_type : String
  resource_id : Option String := none
  metadata : Option (List (String × MetaValue)) := none

/-- Field lookup in a JSON object. -/
def jLookup (k : String) : List (String × Json) → Option Json
  | [] => none
  | (k2, v) :: rest => if k2 = k then some v else jLookup k rest

/-- Extract an `id` field from an operation result (spec section 4.6). -/
def extractId : Json → Option String
  | .obj fields =>
    match jLookup "id" fields with
    | some (.str s) => some s
    | _ => none
  | _ => none

/-- Modelled from the spec: `withAudit` (spec section 4.6, audit tests
lines 329-375). The wrapped asynchronous operation is modelled by its
completed outcome (`.ok` result or `.error` message) and measured duration.
On success the entry records `duration_ms` and a `resource_id` extracted
from the result when the descriptor gave none; on failure the entry records
`success = false` and the failure's message, and the original failure is
returned to the caller unchanged. -/
def withAudit (op : Except String Json) (d : AuditDescriptor)
    (now durationMs : Nat) (st : AppState) : Except String Json × AppState :=
  match op with
  | .ok res =>
    let rid := match d.resource_id with
      | some r => some r
      | none => extractId res
    let input : AuditEntryInput :=
      { event_type := d.event_type, resource_id := rid, success := some true,
        metadata := some (d.metadata.getD [] ++ [("duration_ms", .num durationMs)]) }
    (.ok res, (writeAuditEntry input now st).2)
  | .error msg =>
    let input : AuditEntryInput :=
      { event_type := d.event_type, resource_id := d.resource_id, success := some false,
        error_message := some msg }
    (.error msg, (writeAuditEntry input now st).2)

lemma printJson_data (v : Json) : (printJson v).data = printJ v := rfl

lemma sealV2_data (v : Json) :
    (sealV2 v).data = encTagV2 ++ (ivField.data ++ ('.' :: encList (printJ v))) := by
  rw [sealV2]
  rw [String.data_append, String.data_append, String.data_append]
  have h1 : "enc.v2.".data = encTagV2 := rfl
  have h2 : ".".data = ['.'] := rfl
  have h3 : (encryptString (printJson v)).data = encList (printJ v) := rfl
  rw [h1, h2, h3]
  simp [List.append_assoc]

lemma sealV1_data (v : Json) :
    (sealV1 v).data = encTagV1 ++ (ivField.data ++ ('.' :: encList (printJ v))) := by
  rw [sealV1]
  rw [String.data_append, String.data_append, String.data_append]
  have h1 : "enc.v1.".data = encTagV1 := rfl
  have h2 : ".".data = ['.'] := rfl
  have h3 : (encryptString (printJson v)).data = encList (printJ v) := rfl
  rw [h1, h2, h3]
  simp [List.append_assoc]

lemma ivField_no_dot : ∀ c ∈ ivField.data, c ≠ '.' := by decide

lemma decodeEnvelopeBody_seal (v : Json) :
    decodeEnvelopeBody (ivField.data ++ ('.' :: encList (printJ v))) = some v := by
  rw [decodeEnvelopeBody, splitDot_append _ ivField_no_dot]
  dsimp only
  rw [decList_encList, parseJsonList_printJ]

lemma sealV2_isPrefixV2 (v : Json) : encTagV2.isPrefixOf (sealV2 v).data = true := by
  rw [sealV2_data]
  exact List.isPrefixOf_iff_prefix.mpr (List.prefix_append _ _)

lemma sealV1_isPrefixV1 (v : Json) : encTagV1.isPrefixOf (sealV1 v).data = true := by
  rw [sealV1_data]
  exact List.isPrefixOf_iff_prefix.mpr (List.prefix_append _ _)

lemma sealV1_not_v2 (v : Json) : encTagV2.isPrefixOf (sealV1 v).data = false := by
  rw [sealV1_data]
  rfl

lemma drop7_sealV2 (v : Json) :
    (sealV2 v).data.drop 7 = ivField.data ++ ('.' :: encList (printJ v)) := by
  rw [sealV2_data]
  have h : encTagV2.length = 7 := rfl
  rw [← h]
  simp

lemma drop7_sealV1 (v : Json) :
    (sealV1 v).data.drop 7 = ivField.data ++ ('.' :: encList (printJ v)) := by
  rw [sealV1_data]
  have h : encTagV1.length = 7 := rfl
  rw [← h]
  simp

lemma printJson_not_v2 (v : Json) : encTagV2.isPrefixOf (printJson v).data = false := by
  obtain ⟨c, t, hct, hc⟩ := printJ_head v
  rw [printJson_data, hct]
  show List.isPrefixOf ('e' :: ['n', 'c', '.', 'v', '2', '.']) (c :: t) = false
  rw [List.isPrefixOf]
  have hne : ('e' == c) = false := beq_eq_false_iff_ne.mpr (Ne.symm (headOk_ne hc).2.2)
  rw [hne, Bool.false_and]

lemma printJson_not_v1 (v : Json) : encTagV1.isPrefixOf (printJson v).data = false := by
  obtain ⟨c, t, hct, hc⟩ := printJ_head v
  rw [printJson_data, hct]
  show List.isPrefixOf ('e' :: ['n', 'c', '.', 'v', '1', '.']) (c :: t) = false
  rw [List.isPrefixOf]
  have hne : ('e' == c) = false := beq_eq_false_iff_ne.mpr (Ne.symm (headOk_ne hc).2.2)
  rw [hne, Bool.false_and]

lemma getKeyChecked_ok {st : AppState} {key : List Nat} (hk : st.encKey = some key)
    (hlen : key.length = 32) : getKeyChecked st = .ok key := by
  rw [getKeyChecked, hk]
  dsimp only
  rw [if_pos hlen]

lemma saveSecureItem_ok (k : String) (v : Json) (st : AppState) (key : List Nat)
    (hk : st.encKey = some key) (hlen : key.length = 32) (hb : st.storeBroken = false) :
    saveSecureItem k v st = .ok { st with store := setItem k (sealV2 v) st.store } := by
  rw [saveSecureItem, getKeyChecked_ok hk hlen]
  dsimp only
  rw [if_neg (by simp [hb])]

lemma loadSecureItem_v2 (k : String) (v : Json) (st : AppState) (key : List Nat)
    (hk : st.encKey = some key) (hlen : key.length = 32)
    (hget : getItem k st.store = some (sealV2 v)) :
    loadSecureItem k st = .ok (v, st) := by
  rw [loadSecureItem, hget]
  dsimp only
  rw [if_pos (sealV2_isPrefixV2 v), getKeyChecked_ok hk hlen]
  dsimp only
  rw [drop7_sealV2, decodeEnvelopeBody_seal]

lemma loadSecureItem_legacy (k : String) (v : Json) (st : AppState) (key : List Nat)
    (hk : st.encKey = some key) (hlen : key.length = 32) (hb : st.storeBroken = false)
    (hget : getItem k st.store = some (printJson v)) :
    loadSecureItem k st = .ok (v, { st with store := setItem k (sealV2 v) st.store }) := by
  rw [loadSecureItem, hget]
  dsimp only
  rw [if_neg (by simp [printJson_not_v2 v]), if_neg (by simp [printJson_not_v1 v])]
  have hp : parseJsonList (printJson v).data = some v := parseJsonList_printJ v
  rw [hp]
  dsimp only
  rw [saveSecureItem_ok k v st key hk hlen hb]
  rfl

lemma loadSecureItem_v1 (k : String) (v : Json) (st : AppState) (key : List Nat)
    (hk : st.encKey = some key) (hlen : key.length = 32) (hb : st.storeBroken = false)
    (hget : getItem k st.store = some (sealV1 v)) :
    loadSecureItem k st = .ok (v, { st with store := setItem k (sealV2 v) st.store }) := by
  rw [loadSecureItem, hget]
  dsimp only
  rw [if_neg (by simp [sealV1_not_v2 v]), if_pos (sealV1_isPrefixV1 v),
    getKeyChecked_ok hk hlen]
  dsimp only
  rw [drop7_sealV1, decodeEnvelopeBody_seal]
  dsimp only
  rw [saveSecureItem_ok k v st key hk hlen hb]
  rfl

/-- The persisted audit log of a state holds exactly the entries `l0`
(either nothing is stored yet, or a current-version envelope of `l0`). -/
def storedLogIs (st : AppState) (l0 : List AuditLogEntry) : Prop :=
  (getItem auditKey st.store = none ∧ l0 = []) ∨
  getItem auditKey st.store = some (sealV2 (entriesToJson l0))

lemma loadLogOrEmpty_absent (st : AppState) (hget : getItem auditKey st.store = none) :
    loadLogOrEmpty st = .ok ([], st) := by
  rw [loadLogOrEmpty, loadSecureItem, hget]
  rfl

lemma loadLogOrEmpty_of_storedLogIs (st : AppState) (l0 : List AuditLogEntry)
    (key : List Nat) (hk : st.encKey = some key) (hlen : key.length = 32)
    (hok : ∀ e ∈ l0, entryOk e = true) (hs : storedLogIs st l0) :
    loadLogOrEmpty st = .ok (l0, st) := by
  rcases hs with ⟨hget, hnil⟩ | hget
  · rw [hnil]
    exact loadLogOrEmpty_absent st hget
  · rw [loadLogOrEmpty, loadSecureItem_v2 auditKey (entriesToJson l0) st key hk hlen hget]
    dsimp only
    rw [jsonToEntries_entriesToJson hok]

lemma saveLog_ok (l : List AuditLogEntry) (st : AppState) (key : List Nat)
    (hk : st.encKey = some key) (hlen : key.length = 32) (hb : st.storeBroken = false) :
    saveLog l st =
      .ok { st with store := setItem auditKey (sealV2 (entriesToJson l)) st.store } :=
  saveSecureItem_ok auditKey (entriesToJson l) st key hk hlen hb

lemma flushAuditQueue_spec (st : AppState) (l0 : List AuditLogEntry) (key : List Nat)
    (hk : st.encKey = some key) (hlen : key.length = 32) (hb : st.storeBroken = false)
    (hok : ∀ e ∈ l0, entryOk e = true) (hs : storedLogIs st l0) :
    ∃ st2, flushAuditQueue st = .ok st2 ∧ st2.queue = [] ∧
      st2.encKey = st.encKey ∧ st2.storeBroken = st.storeBroken ∧
      st2.retentionDays = st.retentionDays ∧
      storedLogIs st2 (l0 ++ st.queue) := by
  obtain ⟨ek, sto, brk, q, rd, ctr⟩ := st
  dsimp only at hk hb hs ⊢
  cases q with
  | nil =>
    refine ⟨⟨ek, sto, brk, [], rd, ctr⟩, ?_, rfl, rfl, rfl, rfl, ?_⟩
    · rw [flushAuditQueue]
    · rw [List.append_nil]
      exact hs
  | cons e qs =>
    have hload : loadLogOrEmpty ⟨ek, sto, brk, e :: qs, rd, ctr⟩ =
        .ok (l0, ⟨ek, sto, brk, e :: qs, rd, ctr⟩) :=
      loadLogOrEmpty_of_storedLogIs _ l0 key hk hlen hok hs
    refine ⟨⟨ek, setItem auditKey (sealV2 (entriesToJson (l0 ++ e :: qs))) sto,
      brk, [], rd, ctr⟩, ?_, rfl, rfl, rfl, rfl, ?_⟩
    · rw [flushAuditQueue]
      dsimp only
      rw [hload]
      dsimp only
      rw [saveLog_ok (l0 ++ e :: qs) ⟨ek, sto, brk, [], rd, ctr⟩ key hk hlen hb]
    · exact Or.inr (getItem_setItem _ _ _)

/-- A 32-byte key as configured in the tests. -/
def key32 : List Nat := List.replicate 32 0

/-- A fresh state: configured key, empty store, working persistence, empty
queue, default retention. -/
def freshState : AppState := ⟨some key32, [], false, [], 180, 0⟩

/-- C8: `saveSecureItem` fails with `KeyMissing` when no encryption key is
configured and with `KeyInvalidLength` when the configured key is not the
cipher's 32-byte key size — no default key is silently substituted. -/
theorem saveSecureItem_key_errors (k : String) (v : Json) (st : AppState) :
    (st.encKey = none → saveSecureItem k v st = .error .keyMissing) ∧
    (∀ key, st.encKey = some key → key.length ≠ 32 →
      saveSecureItem k v st = .error (.keyInvalidLength key.length)) := by
  constructor
  · intro h
    rw [saveSecureItem, getKeyChecked, h]
  · intro key hk hne
    rw [saveSecureItem, getKeyChecked, hk]
    dsimp only
    rw [if_neg hne]

/-- Witness for C8: a missing key and a 16-byte key at a concrete save. -/
theorem saveSecureItem_key_errors_witness :
    saveSecureItem "test" Json.null ⟨none, [], false, [], 180, 0⟩ =
      .error .keyMissing ∧
    saveSecureItem "test" Json.null
        ⟨some (List.replicate 16 0), [], false, [], 180, 0⟩ =
      .error (.keyInvalidLength (List.replicate 16 0).length) :=
  ⟨(saveSecureItem_key_errors "test" Json.null _).1 rfl,
   (saveSecureItem_key_errors "test" Json.null _).2 (List.replicate 16 0) rfl (by decide)⟩

/-- C4: when the wrapped operation fails, `withAudit` returns the original
failure unchanged to the caller and enqueues an audit entry with
`success = false` and `error_message` set from the failure's message. -/
theorem withAudit_failure (msg : String) (d : AuditDescriptor) (now durationMs : Nat)
    (st : AppState) :
    (withAudit (.error msg) d now durationMs st).1 = .error msg ∧
    ∃ e, (withAudit (.error msg) d now durationMs st).2.queue = st.queue ++ [e] ∧
      e.success = false ∧ e.error_message = some msg ∧ e.event_type = d.event_type :=
  ⟨rfl, mkEntry (AuditEntryInput.mk d.event_type d.resource_id (some false)
      (some msg) none) now st.uuidCounter, rfl, rfl, rfl, rfl⟩

/-- C10: saving `null` under a key and then loading it returns `null`, the
same result `loadSecureItem` returns for a key that was never saved — a
stored null is indistinguishable from an absent entry at the load
interface. -/
theorem saveNull_load_indistinguishable (k k2 : String) (st st2 : AppState)
    (key : List Nat) (hk : st.encKey = some key) (hlen : key.length = 32)
    (hb : st.storeBroken = false)
    (hsave : saveSecureItem k Json.null st = .ok st2) :
    loadSecureItem k st2 = .ok (.null, st2) ∧
    (getItem k2 st.store = none → loadSecureItem k2 st = .ok (.null, st)) := by
  rw [saveSecureItem_ok k Json.null st key hk hlen hb] at hsave
  cases hsave
  constructor
  · exact loadSecureItem_v2 k Json.null _ key hk hlen (getItem_setItem _ _ _)
  · intro hget
    rw [loadSecureItem, hget]

/-- Witness for C10 at a concrete fresh state. -/
theorem saveNull_load_indistinguishable_witness :
    loadSecureItem "empty-test"
        { freshState with
          store := setItem "empty-test" (sealV2 Json.null) freshState.store } =
      .ok (.null, { freshState with
          store := setItem "empty-test" (sealV2 Json.null) freshState.store }) ∧
    (getItem "other" freshState.store = none →
      loadSecureItem "other" freshState = .ok (.null, freshState)) :=
  saveNull_load_indistinguishable "empty-test" "other" freshState _ key32 rfl (by decide)
    rfl (saveSecureItem_ok "empty-test" Json.null freshState key32 rfl (by decide) rfl)

/-- C9: a nonempty write buffer whose persistence write fails makes
`flushAuditQueue` fail with `FlushFailed` propagating the underlying
storage error — the failed batch is never reported as success. -/
theorem flushAuditQueue_write_failure (st : AppState) (l0 : List AuditLogEntry)
    (key : List Nat) (hq : st.queue ≠ [])
    (hk : st.encKey = some key) (hlen : key.length = 32) (hb : st.storeBroken = true)
    (hok : ∀ e ∈ l0, entryOk e = true) (hs : storedLogIs st l0) :
    flushAuditQueue st =
      .error (.flushFailed (.storageFailure "Storage quota exceeded")) := by
  obtain ⟨ek, sto, brk, q, rd, ctr⟩ := st
  dsimp only at hq hk hb hs ⊢
  cases q with
  | nil => exact absurd rfl hq
  | cons e qs =>
    have hload := loadLogOrEmpty_of_storedLogIs ⟨ek, sto, brk, e :: qs, rd, ctr⟩ l0 key
      hk hlen hok hs
    rw [flushAuditQueue]
    dsimp only
    rw [hload]
    dsimp only
    rw [saveLog, saveSecureItem, getKeyChecked_ok hk hlen]
    dsimp only
    rw [if_pos hb]

/-- Witness for C9: concrete broken-storage state with one queued entry. -/
theorem flushAuditQueue_write_failure_witness :
    flushAuditQueue ⟨some key32, [], true,
        [⟨"a", 1, "encounter.created", none, true, none, "local-user", none⟩], 180, 0⟩ =
      .error (.flushFailed (.storageFailure "Storage quota exceeded")) :=
  flushAuditQueue_write_failure _ [] key32 (by simp) rfl (by decide) rfl
    (fun e he => absurd he (List.not_mem_nil e)) (Or.inl ⟨rfl, rfl⟩)

/-- C2: loading a legacy plaintext value or an older-version (v1) envelope
returns the decoded value and rewrites the stored form as a
current-version (v2) envelope; an immediate second load returns the same
value with the stored form unchanged (lazy migration idempotence). -/
theorem loadSecureItem_migration (k : String) (v : Json) (st : AppState)
    (key : List Nat) (hk : st.encKey = some key) (hlen : key.length = 32)
    (hb : st.storeBroken = false) :
    (getItem k st.store = some (printJson v) →
      ∃ st2, loadSecureItem k st = .ok (v, st2) ∧
        getItem k st2.store = some (sealV2 v) ∧
        encTagV2.isPrefixOf (sealV2 v).data = true ∧
        loadSecureItem k st2 = .ok (v, st2)) ∧
    (getItem k st.store = some (sealV1 v) →
      ∃ st2, loadSecureItem k st = .ok (v, st2) ∧
        getItem k st2.store = some (sealV2 v) ∧
        encTagV2.isPrefixOf (sealV2 v).data = true ∧
        loadSecureItem k st2 = .ok (v, st2)) := by
  constructor
  · intro hget
    refine ⟨{ st with store := setItem k (sealV2 v) st.store },
      loadSecureItem_legacy k v st key hk hlen hb hget, getItem_setItem _ _ _,
      sealV2_isPrefixV2 v, ?_⟩
    exact loadSecureItem_v2 k v _ key hk hlen (getItem_setItem _ _ _)
  · intro hget
    refine ⟨{ st with store := setItem k (sealV2 v) st.store },
      loadSecureItem_v1 k v st key hk hlen hb hget, getItem_setItem _ _ _,
      sealV2_isPrefixV2 v, ?_⟩
    exact loadSecureItem_v2 k v _ key hk hlen (getItem_setItem _ _ _)

/-- Witness for C2: a concrete store holding a legacy plaintext record and
a v1 envelope. -/
theorem loadSecureItem_migration_witness :
    (getItem "legacy-encounter"
        (AppState.store ⟨some key32,
          [("legacy-encounter", printJson (Json.bool true)),
           ("v1-encounter", sealV1 (Json.bool true))], false, [], 180, 0⟩) =
        some (printJson (Json.bool true)) →
      ∃ st2, loadSecureItem "legacy-encounter"
          ⟨some key32, [("legacy-encounter", printJson (Json.bool true)),
            ("v1-encounter", sealV1 (Json.bool true))], false, [], 180, 0⟩ =
          .ok (Json.bool true, st2) ∧
        getItem "legacy-encounter" st2.store = some (sealV2 (Json.bool true)) ∧
        encTagV2.isPrefixOf (sealV2 (Json.bool true)).data = true ∧
        loadSecureItem "legacy-encounter" st2 = .ok (Json.bool true, st2)) ∧
    (getItem "v1-encounter"
        (AppState.store ⟨some key32,
          [("legacy-encounter", printJson (Json.bool true)),
           ("v1-encounter", sealV1 (Json.bool true))], false, [], 180, 0⟩) =
        some (sealV1 (Json.bool true)) →
      ∃ st2, loadSecureItem "v1-encounter"
          ⟨some key32, [("legacy-encounter", printJson (Json.bool true)),
            ("v1-encounter", sealV1 (Json.bool true))], false, [], 180, 0⟩ =
          .ok (Json.bool true, st2) ∧
        getItem "v1-encounter" st2.store = some (sealV2 (Json.bool true)) ∧
        encTagV2.isPrefixOf (sealV2 (Json.bool true)).data = true ∧
        loadSecureItem "v1-encounter" st2 = .ok (Json.bool true, st2)) :=
  ⟨(loadSecureItem_migration "legacy-encounter" (Json.bool true) _ key32 rfl (by decide)
      rfl).1,
   (loadSecureItem_migration "v1-encounter" (Json.bool true) _ key32 rfl (by decide)
      rfl).2⟩

lemma saveSecureItem_ok_inv (k : String) (v : Json) (stX st2 : AppState)
    (h : saveSecureItem k v stX = .ok st2) :
    st2.store = setItem k (sealV2 v) stX.store := by
  rw [saveSecureItem] at h
  cases hkc : getKeyChecked stX with
  | error e => rw [hkc] at h; cases h
  | ok key =>
    rw [hkc] at h
    dsimp only at h
    cases hbb : stX.storeBroken with
    | true => rw [hbb] at h; simp at h
    | false =>
      rw [hbb] at h
      simp only [Bool.false_eq_true, if_false] at h
      cases h
      rfl

lemma printJ_ne_nil (v : Json) : printJ v ≠ [] := by
  obtain ⟨c, t, hct, _⟩ := printJ_head v
  rw [hct]
  exact List.cons_ne_nil c t

lemma encList_printJ_ne_nil (v : Json) : encList (printJ v) ≠ [] := by
  obtain ⟨c, t, hct, _⟩ := printJ_head v
  rw [hct, encList, encChar4]
  simp

/-- C3: every value freshly written by `saveSecureItem` — including the
audit log blob a queue flush persists under the fixed key — is stored as a
current-version envelope: the prefix `enc.v2.` followed by a nonempty
base64 IV field, a dot, and a nonempty base64 ciphertext field; never
plaintext JSON. -/
theorem saveSecureItem_envelope_format (k : String) (v : Json) (st : AppState)
    (key : List Nat) (hk : st.encKey = some key) (hlen : key.length = 32)
    (hb : st.storeBroken = false) :
    (∃ st2 iv ct, saveSecureItem k v st = .ok st2 ∧
      getItem k st2.store = some ("enc.v2." ++ iv ++ "." ++ ct) ∧
      iv.data ≠ [] ∧ ct.data ≠ [] ∧
      (∀ c ∈ iv.data, isB64 c = true) ∧ (∀ c ∈ ct.data, isB64 c = true) ∧
      (∀ w : Json, "enc.v2." ++ iv ++ "." ++ ct ≠ printJson w)) ∧
    (∀ st2, st.queue ≠ [] → flushAuditQueue st = .ok st2 →
      ∃ iv ct, getItem auditKey st2.store = some ("enc.v2." ++ iv ++ "." ++ ct) ∧
        (∀ c ∈ iv.data, isB64 c = true) ∧ (∀ c ∈ ct.data, isB64 c = true)) := by
  have hfmt : ∀ w : Json,
      (ivField.data ≠ [] ∧ (encryptString (printJson w)).data ≠ []) ∧
      (∀ c ∈ ivField.data, isB64 c = true) ∧
      (∀ c ∈ (encryptString (printJson w)).data, isB64 c = true) ∧
      (∀ u : Json, "enc.v2." ++ ivField ++ "." ++ encryptString (printJson w) ≠
        printJson u) := by
    intro w
    refine ⟨⟨by decide, encList_printJ_ne_nil w⟩, by decide, encList_b64 _, ?_⟩
    intro u hequ
    have h1 : encTagV2.isPrefixOf
        ("enc.v2." ++ ivField ++ "." ++ encryptString (printJson w)).data = true :=
      sealV2_isPrefixV2 w
    rw [hequ, printJson_not_v2 u] at h1
    exact Bool.false_ne_true h1
  constructor
  · refine ⟨_, ivField, encryptString (printJson v),
      saveSecureItem_ok k v st key hk hlen hb, ?_, (hfmt v).1.1, (hfmt v).1.2,
      (hfmt v).2.1, (hfmt v).2.2.1, (hfmt v).2.2.2⟩
    exact getItem_setItem _ _ _
  · intro st2 hq hflush
    obtain ⟨ek, sto, brk, q, rd, ctr⟩ := st
    dsimp only at hq ⊢
    cases q with
    | nil => exact absurd rfl hq
    | cons e qs =>
      rw [flushAuditQueue] at hflush
      dsimp only at hflush
      cases hload : loadLogOrEmpty ⟨ek, sto, brk, e :: qs, rd, ctr⟩ with
      | error e2 => rw [hload] at hflush; cases hflush
      | ok p =>
        obtain ⟨l1, st1⟩ := p
        rw [hload] at hflush
        dsimp only at hflush
        cases hsv : saveLog (l1 ++ e :: qs) { st1 with queue := [] } with
        | error e3 => rw [hsv] at hflush; cases hflush
        | ok st3 =>
          rw [hsv] at hflush
          dsimp only at hflush
          cases hflush
          have hst := saveSecureItem_ok_inv auditKey (entriesToJson (l1 ++ e :: qs))
            { st1 with queue := [] } st2 hsv
          refine ⟨ivField, encryptString (printJson (entriesToJson (l1 ++ e :: qs))),
            ?_, (hfmt (entriesToJson (l1 ++ e :: qs))).2.1,
            (hfmt (entriesToJson (l1 ++ e :: qs))).2.2.1⟩
          rw [hst]
          exact getItem_setItem _ _ _

/-- Witness for C3 at a concrete save and a concrete flush. -/
theorem saveSecureItem_envelope_format_witness :
    (∃ st2 iv ct, saveSecureItem "test-encounter" (Json.bool true) freshState = .ok st2 ∧
      getItem "test-encounter" st2.store = some ("enc.v2." ++ iv ++ "." ++ ct) ∧
      iv.data ≠ [] ∧ ct.data ≠ [] ∧
      (∀ c ∈ iv.data, isB64 c = true) ∧ (∀ c ∈ ct.data, isB64 c = true) ∧
      (∀ w : Json, "enc.v2." ++ iv ++ "." ++ ct ≠ printJson w)) ∧
    (∀ st2, AppState.queue freshState ≠ [] → flushAuditQueue freshState = .ok st2 →
      ∃ iv ct, getItem auditKey st2.store = some ("enc.v2." ++ iv ++ "." ++ ct) ∧
        (∀ c ∈ iv.data, isB64 c = true) ∧ (∀ c ∈ ct.data, isB64 c = true)) :=
  saveSecureItem_envelope_format "test-encounter" (Json.bool true) freshState key32
    rfl (by decide) rfl

/-- C6: after `purgeAllAuditLogs` the persisted audit log contains exactly
one entry, recording the purge itself: `event_type = "audit.purged"` with
`metadata.manual_purge = true`. -/
theorem purgeAllAuditLogs_spec (st : AppState) (now : Nat) (key : List Nat)
    (hk : st.encKey = some key) (hlen : key.length = 32) (hb : st.storeBroken = false) :
    ∃ st2 e, purgeAllAuditLogs st now = .ok st2 ∧
      loadLogOrEmpty st2 = .ok ([e], st2) ∧
      e.event_type = "audit.purged" ∧
      e.metadata = some [("manual_purge", .bool true)] ∧ e.success = true := by
  refine ⟨_, mkEntry (AuditEntryInput.mk "audit.purged" none none none
      (some [("manual_purge", .bool true)])) now st.uuidCounter,
    saveLog_ok _ _ key hk hlen hb, ?_, rfl, rfl, rfl⟩
  refine loadLogOrEmpty_of_storedLogIs _ _ key ?_ hlen ?_ ?_
  · exact hk
  · intro e he
    rw [List.mem_singleton] at he
    rw [he]
    rfl
  · exact Or.inr (getItem_setItem _ _ _)

/-- Witness for C6 at a concrete state with two persisted entries. -/
theorem purgeAllAuditLogs_spec_witness :
    ∃ st2 e, purgeAllAuditLogs
        ⟨some key32,
         [(auditKey, sealV2 (entriesToJson
            [⟨"a", 1, "encounter.created", none, true, none, "local-user", none⟩,
             ⟨"b", 2, "encounter.updated", none, true, none, "local-user", none⟩]))],
         false, [], 180, 7⟩ 99 = .ok st2 ∧
      loadLogOrEmpty st2 = .ok ([e], st2) ∧
      e.event_type = "audit.purged" ∧
      e.metadata = some [("manual_purge", .bool true)] ∧ e.success = true :=
  purgeAllAuditLogs_spec _ 99 key32 rfl (by decide) rfl

lemma filter_length_split (l : List AuditLogEntry) (cutoff : Nat) :
    (l.filter (fun e => decide (cutoff ≤ e.timestamp))).length +
      (l.filter (fun e => decide (e.timestamp < cutoff))).length = l.length := by
  induction l with
  | nil => rfl
  | cons e es ih =>
    rw [List.filter_cons, List.filter_cons]
    by_cases h : cutoff ≤ e.timestamp
    · rw [if_pos (by simpa using h), if_neg (by simp; omega)]
      simp only [List.length_cons]
      omega
    · rw [if_neg (by simpa using h), if_pos (by simp; omega)]
      simp only [List.length_cons]
      omega

/-- C7: `cleanupOldAuditEntries` removes exactly the persisted entries
strictly older than now minus the retention window, returns the exact
count removed, and appends an `audit.purged` entry carrying
`metadata.retention_days` if and only if the removed count is positive. -/
theorem cleanupOldAuditEntries_spec (st : AppState) (now : Nat)
    (l : List AuditLogEntry) (key : List Nat)
    (hk : st.encKey = some key) (hlen : key.length = 32) (hb : st.storeBroken = false)
    (hok : ∀ e ∈ l, entryOk e = true) (hs : storedLogIs st l) :
    ∃ st2, cleanupOldAuditEntries st now =
        .ok ((l.filter (fun e =>
          decide (e.timestamp < now - st.retentionDays * msPerDay))).length, st2) ∧
      ((l.filter (fun e =>
          decide (e.timestamp < now - st.retentionDays * msPerDay))).length = 0 →
        loadLogOrEmpty st2 = .ok (l, st2)) ∧
      (0 < (l.filter (fun e =>
          decide (e.timestamp < now - st.retentionDays * msPerDay))).length →
        ∃ ce, loadLogOrEmpty st2 =
            .ok (l.filter (fun e =>
              decide (now - st.retentionDays * msPerDay ≤ e.timestamp)) ++ [ce], st2) ∧
          ce.event_type = "audit.purged" ∧
          ce.metadata = some [("retention_days", .num st.retentionDays)]) := by
  have hload := loadLogOrEmpty_of_storedLogIs st l key hk hlen hok hs
  have hsplit := filter_length_split l (now - st.retentionDays * msPerDay)
  rw [cleanupOldAuditEntries]
  rw [hload]
  dsimp only
  by_cases h0 : l.length -
      (l.filter (fun e => decide (now - st.retentionDays * msPerDay ≤ e.timestamp))).length = 0
  · rw [if_pos h0]
    refine ⟨st, ?_, fun _ => hload, fun hpos => absurd hpos (by omega)⟩
    have hz : (l.filter (fun e =>
        decide (e.timestamp < now - st.retentionDays * msPerDay))).length = 0 := by
      omega
    rw [hz]
  · rw [if_neg h0]
    set ce := mkEntry (AuditEntryInput.mk "audit.purged" none none none
      (some [("retention_days", .num st.retentionDays)])) now st.uuidCounter with hce
    have hsv := saveLog_ok
      (l.filter (fun e => decide (now - st.retentionDays * msPerDay ≤ e.timestamp)) ++ [ce])
      ⟨st.encKey, st.store, st.storeBroken, st.queue, st.retentionDays,
        st.uuidCounter + 1⟩ key hk hlen hb
    rw [hsv]
    dsimp only
    have hrem : l.length -
        (l.filter (fun e =>
          decide (now - st.retentionDays * msPerDay ≤ e.timestamp))).length =
        (l.filter (fun e =>
          decide (e.timestamp < now - st.retentionDays * msPerDay))).length := by
      omega
    rw [hrem]
    refine ⟨_, rfl, fun hz => absurd hz (by omega), fun _ => ⟨ce, ?_, rfl, rfl⟩⟩
    refine loadLogOrEmpty_of_storedLogIs _ _ key ?_ hlen ?_ ?_
    · exact hk
    · intro e he
      rw [List.mem_append] at he
      rcases he with he | he
      · exact hok e (List.mem_filter.mp he).1
      · rw [List.mem_singleton] at he
        rw [he]
        rfl
    · exact Or.inr (getItem_setItem _ _ _)

/-- Witness for C7: one entry 100 days old and one fresh entry under a
90-day retention window; exactly the old entry is removed. -/
theorem cleanupOldAuditEntries_spec_witness :
    ∃ st2, cleanupOldAuditEntries
        ⟨some key32,
         [(auditKey, sealV2 (entriesToJson
            [⟨"old-1", 1000, "encounter.created", none, true, none, "local-user", none⟩,
             ⟨"new-1", 9000000000, "encounter.updated", none, true, none, "local-user",
              none⟩]))],
         false, [], 90, 3⟩ 9000000000 =
        .ok (([⟨"old-1", 1000, "encounter.created", none, true, none, "local-user",
            none⟩,
           (⟨"new-1", 9000000000, "encounter.updated", none, true, none, "local-user",
            none⟩ : AuditLogEntry)].filter (fun e =>
          decide (e.timestamp < 9000000000 - 90 * msPerDay))).length, st2) ∧
      (([(⟨"old-1", 1000, "encounter.created", none, true, none, "local-user",
            none⟩ : AuditLogEntry),
         ⟨"new-1", 9000000000, "encounter.updated", none, true, none, "local-user",
            none⟩].filter (fun e =>
          decide (e.timestamp < 9000000000 - 90 * msPerDay))).length = 0 →
        loadLogOrEmpty st2 =
          .ok ([⟨"old-1", 1000, "encounter.created", none, true, none, "local-user",
              none⟩,
            ⟨"new-1", 9000000000, "encounter.updated", none, true, none, "local-user",
              none⟩], st2)) ∧
      (0 < ([(⟨"old-1", 1000, "encounter.created", none, true, none, "local-user",
            none⟩ : AuditLogEntry),
         ⟨"new-1", 9000000000, "encounter.updated", none, true, none, "local-user",
            none⟩].filter (fun e =>
          decide (e.timestamp < 9000000000 - 90 * msPerDay))).length →
        ∃ ce, loadLogOrEmpty st2 =
            .ok ([(⟨"old-1", 1000, "encounter.created", none, true, none, "local-user",
                none⟩ : AuditLogEntry),
              ⟨"new-1", 9000000000, "encounter.updated", none, true, none, "local-user",
                none⟩].filter (fun e =>
              decide (9000000000 - 90 * msPerDay ≤ e.timestamp)) ++ [ce], st2) ∧
          ce.event_type = "audit.purged" ∧
          ce.metadata = some [("retention_days", .num 90)]) :=
  cleanupOldAuditEntries_spec _ 9000000000 _ key32 rfl (by decide) rfl
    (by
      intro e he
      simp only [List.mem_cons, List.not_mem_nil, or_false] at he
      rcases he with h | h <;> (subst h; rfl))
    (Or.inr rfl)

lemma sanitizeMetadata_all (m : List (String × MetaValue)) :
    (sanitizeMetadata m).all (fun p => metaOk p.2) = true := by
  rw [List.all_eq_true]
  intro p hp
  exact (List.mem_filter.mp hp).2

lemma mkEntry_entryOk (input : AuditEntryInput) (now ctr : Nat) :
    entryOk (mkEntry input now ctr) = true := by
  rw [entryOk, mkEntry]
  cases input.metadata with
  | none => rfl
  | some m => exact sanitizeMetadata_all m

/-- C1: `writeAuditEntry` strips every metadata field whose value violates
the structural allow-list (objects, binary payloads, over-cap strings):
the created entry carries only allow-listed metadata, a violating input
field never appears in it, and after a flush every entry of the persisted
audit log still satisfies the allow-list — the violating value is never
persisted. -/
theorem writeAuditEntry_no_phi (input : AuditEntryInput) (now : Nat) (st : AppState) :
    entryOk (writeAuditEntry input now st).1 = true ∧
    (∀ m, input.metadata = some m → ∀ k v, (k, v) ∈ m → metaOk v = false →
      (k, v) ∉ ((writeAuditEntry input now st).1.metadata.getD [])) ∧
    (∀ l0 key, st.encKey = some key → key.length = 32 → st.storeBroken = false →
      (∀ e ∈ l0, entryOk e = true) → (∀ e ∈ st.queue, entryOk e = true) →
      storedLogIs st l0 →
      ∃ st2, flushAuditQueue (writeAuditEntry input now st).2 = .ok st2 ∧
        loadLogOrEmpty st2 =
          .ok (l0 ++ (st.queue ++ [(writeAuditEntry input now st).1]), st2) ∧
        ∀ e ∈ l0 ++ (st.queue ++ [(writeAuditEntry input now st).1]),
          entryOk e = true) := by
  refine ⟨mkEntry_entryOk input now st.uuidCounter, ?_, ?_⟩
  · intro m hm k v hkv hbad hmem
    rw [writeAuditEntry] at hmem
    dsimp only at hmem
    rw [mkEntry, hm] at hmem
    dsimp only [Option.map, Option.getD] at hmem
    have := (List.mem_filter.mp hmem).2
    rw [hbad] at this
    cases this
  · intro l0 key hk hlen hb hok hqok hs
    have hallok : ∀ e ∈ l0 ++ (st.queue ++ [(writeAuditEntry input now st).1]),
        entryOk e = true := by
      intro e he
      rw [List.mem_append] at he
      rcases he with he | he
      · exact hok e he
      · rw [List.mem_append] at he
        rcases he with he | he
        · exact hqok e he
        · rw [List.mem_singleton] at he
          rw [he]
          exact mkEntry_entryOk input now st.uuidCounter
    obtain ⟨st2, hflush, _, hek, _, _, hs2⟩ := flushAuditQueue_spec
      (writeAuditEntry input now st).2 l0 key hk hlen hb hok
      (by exact hs)
    have hqeq : (writeAuditEntry input now st).2.queue =
        st.queue ++ [(writeAuditEntry input now st).1] := rfl
    rw [hqeq] at hs2
    refine ⟨st2, hflush, ?_, hallok⟩
    have hload := loadLogOrEmpty_of_storedLogIs st2
      (l0 ++ (st.queue ++ [(writeAuditEntry input now st).1])) key ?_ hlen ?_ ?_
    · exact hload
    · rw [hek]
      exact hk
    · exact hallok
    · rw [← List.append_assoc] at hs2
      rw [← List.append_assoc]
      exact hs2

/-- Witness for C1: an input whose metadata mixes allowed flags/counts with
an object, a binary payload and an over-cap string. -/
theorem writeAuditEntry_no_phi_witness :
    entryOk (writeAuditEntry
      (AuditEntryInput.mk "encounter.created" (some "enc-123") (some true) none
        (some [("has_patient_name", .bool true), ("transcript_length", .num 1500),
               ("patient_record", .obj [("name", .str "John Doe")]),
               ("audio_blob", .bin 44100)]))
      5 freshState).1 = true ∧
    ((("patient_record", MetaValue.obj [("name", .str "John Doe")]) ∉
      ((writeAuditEntry
        (AuditEntryInput.mk "encounter.created" (some "enc-123") (some true) none
          (some [("has_patient_name", .bool true), ("transcript_length", .num 1500),
                 ("patient_record", .obj [("name", .str "John Doe")]),
                 ("audio_blob", .bin 44100)]))
        5 freshState).1.metadata.getD [])) ∧
     (("audio_blob", MetaValue.bin 44100) ∉
      ((writeAuditEntry
        (AuditEntryInput.mk "encounter.created" (some "enc-123") (some true) none
          (some [("has_patient_name", .bool true), ("transcript_length", .num 1500),
                 ("patient_record", .obj [("name", .str "John Doe")]),
                 ("audio_blob", .bin 44100)]))
        5 freshState).1.metadata.getD []))) := by
  have h := writeAuditEntry_no_phi
    (AuditEntryInput.mk "encounter.created" (some "enc-123") (some true) none
      (some [("has_patient_name", .bool true), ("transcript_length", .num 1500),
             ("patient_record", .obj [("name", .str "John Doe")]),
             ("audio_blob", .bin 44100)]))
    5 freshState
  refine ⟨h.1, h.2.1 _ rfl "patient_record" _ (by simp) rfl,
    h.2.1 _ rfl "audio_blob" _ (by simp) rfl⟩

/-- C5: `getAuditEntries` first forces a flush of the write queue (the
returned state's buffer is empty) and returns, for an unlimited filter, a
permutation of exactly the matching entries among everything written —
persisted or still queued (read-your-writes) — sorted
newest-timestamp-first. -/
theorem getAuditEntries_spec (f : AuditFilter) (st : AppState)
    (l0 : List AuditLogEntry) (key : List Nat)
    (hk : st.encKey = some key) (hlen : key.length = 32) (hb : st.storeBroken = false)
    (hok : ∀ e ∈ l0, entryOk e = true) (hqok : ∀ e ∈ st.queue, entryOk e = true)
    (hs : storedLogIs st l0) (hlim : f.limit = none) :
    ∃ res st2, getAuditEntries f st = .ok (res, st2) ∧ st2.queue = [] ∧
      List.Perm res ((l0 ++ st.queue).filter (matchesFilter f)) ∧
      List.Sorted newerFirst res := by
  obtain ⟨st1, hflush, hq1, hek1, hbk1, hrd1, hs1⟩ :=
    flushAuditQueue_spec st l0 key hk hlen hb hok hs
  have hok1 : ∀ e ∈ l0 ++ st.queue, entryOk e = true := by
    intro e he
    rcases List.mem_append.mp he with h | h
    · exact hok e h
    · exact hqok e h
  have hload := loadLogOrEmpty_of_storedLogIs st1 (l0 ++ st.queue) key
    (by rw [hek1]; exact hk) hlen hok1 hs1
  refine ⟨List.insertionSort newerFirst ((l0 ++ st.queue).filter (matchesFilter f)),
    st1, ?_, hq1, List.perm_insertionSort _ _, List.sorted_insertionSort _ _⟩
  rw [getAuditEntries, hflush]
  dsimp only
  rw [hload]
  dsimp only
  rw [hlim]

/-- Witness for C5: three queued (unflushed) writes with increasing
timestamps against an empty persisted log and the empty filter. -/
theorem getAuditEntries_spec_witness :
    ∃ res st2, getAuditEntries ({} : AuditFilter) (AppState.mk (some key32) [] false
        [AuditLogEntry.mk "a" 1 "encounter.created" none true none "local-user" none,
         AuditLogEntry.mk "b" 2 "encounter.updated" none true none "local-user" none,
         AuditLogEntry.mk "c" 3 "encounter.deleted" none true none "local-user" none]
        180 3) =
      .ok (res, st2) ∧ st2.queue = [] ∧
      List.Perm res (([] ++
        [AuditLogEntry.mk "a" 1 "encounter.created" none true none "local-user" none,
         AuditLogEntry.mk "b" 2 "encounter.updated" none true none "local-user" none,
         AuditLogEntry.mk "c" 3 "encounter.deleted" none true none "local-user"
           none]).filter (matchesFilter ({} : AuditFilter))) ∧
      List.Sorted newerFirst res :=
  getAuditEntries_spec ({} : AuditFilter) _ [] key32 rfl (by decide) rfl
    (fun e he => absurd he (List.not_mem_nil e))
    (by
      intro e he
      simp only [List.mem_cons, List.not_mem_nil, or_false] at he
      rcases he with h | h | h <;> (subst h; rfl))
    (Or.inl ⟨rfl, rfl⟩) rfl
